import Mathlib

/-!
Verification of the configuration-loading core of pydantic-settings-sources:
the environment-variable substitution engine, the natural-type inference of
substituted scalars, the multi-file deep-merge algorithm, and the two
settings-source front ends (TOML and YAML) of
src/pydantic_settings_sources/sources.py.

The substitution engine (deep_substitute_env_vars of
pydantic_settings_sources/utils.py) and the deep-merge strategy
(deepmerge.always_merger) are not part of the sources under src/; they are
modelled from the specification, as marked on each such definition.
The front ends, the directory walk, the lexicographic per-directory sort and
the suffix filter are embedded from sources.py itself, with the filesystem
and the format parsers abstracted to the interface the specification gives
them (a path resolves to a file with a parse outcome, a directory tree, or
nothing).
-/

/-- ConfigTree: the recursive mapping / sequence / scalar value produced by
parsing one configuration file (spec section 3).  Scalars are String,
Integer, Float, Boolean and Null; a Float carries its literal text, since no
claim computes with float arithmetic.  Mappings are insertion-ordered
association lists, as Python dicts are. -/
inductive ConfigTree where
  | str (s : String)
  | int (n : Int)
  | float (lit : String)
  | bool (b : Bool)
  | null
  | seq (xs : List ConfigTree)
  | map (kvs : List (String × ConfigTree))

/-- Reference segment: one parsed piece of a string scalar — either literal
text or a reference occurrence with its optional DEFAULT clause. -/
inductive Seg where
  | lit (s : String)
  | ref (name : String) (dflt : Option String)
  deriving DecidableEq

/-- Environment-variable-legal name characters (spec section 3: NAME is a
non-empty token of environment-variable-legal characters). -/
def isEnvChar (c : Char) : Bool := c.isAlphanum || c = '_'

/-- Modelled from the spec: the reference scanner's attempt to read
NAME, an optional :-DEFAULT clause and the closing brace, immediately after
an opening dollar-brace.  DEFAULT is non-greedy up to the first closing
brace.  Returns the parsed reference and the remaining characters, or none
when the text is malformed (which the caller treats as literal text). -/
def scanRef (cs : List Char) : Option (String × Option String × List Char) :=
  let nm := cs.takeWhile isEnvChar
  if nm.isEmpty then none
  else
    match cs.dropWhile isEnvChar with
    | '}' :: rest => some (String.mk nm, none, rest)
    | ':' :: '-' :: rest =>
      match rest.dropWhile (fun c => c != '}') with
      | '}' :: rest2 =>
        some (String.mk nm, some (String.mk (rest.takeWhile (fun c => c != '}'))), rest2)
      | _ => none
    | _ => none

/-- Flush an accumulated (reversed) run of literal characters onto a segment
list, dropping it when empty. -/
def pushLit (acc : List Char) (segs : List Seg) : List Seg :=
  if acc.isEmpty then segs else Seg.lit (String.mk acc.reverse) :: segs

/-- Modelled from the spec: the scanner loop over a string scalar.  Fuel is
one unit per consumed character, so the input's length always suffices;
an unmatched opening dollar-brace is passed through as literal text. -/
def segAux : Nat → List Char → List Char → List Seg
  | _, acc, [] => pushLit acc []
  | 0, acc, cs => pushLit (cs.reverse ++ acc) []
  | Nat.succ fuel, acc, c :: cs =>
    if c = '$' then
      match cs with
      | [] => segAux fuel (c :: acc) cs
      | c2 :: cs2 =>
        if c2 = '{' then
          match scanRef cs2 with
          | some (n, d, rest) => pushLit acc (Seg.ref n d :: segAux fuel [] rest)
          | none => segAux fuel (c :: acc) cs
        else segAux fuel (c :: acc) cs
    else segAux fuel (c :: acc) cs

/-- Modelled from the spec: scan a string scalar into its literal and
reference segments (spec section 4.2, steps 1 and 5). -/
def parseSegs (s : String) : List Seg := segAux s.data.length [] s.data

/-- Test for a reference segment. -/
def isRefSeg : Seg → Bool
  | .lit _ => false
  | .ref _ _ => true

/-- Whether a string scalar contains at least one reference occurrence. -/
def hasRef (s : String) : Bool := (parseSegs s).any isRefSeg

/-- Literal text of a segment (empty for a reference). -/
def litText : Seg → String
  | .lit s => s
  | .ref _ _ => ""

/-- Decimal digits folded to a natural number. -/
def digitsToNat (l : List Char) : Nat :=
  l.foldl (fun n c => n * 10 + (c.toNat - 48)) 0

/-- Non-empty all-digit character run. -/
def isDigits (l : List Char) : Bool := !l.isEmpty && l.all (·.isDigit)

/-- Modelled from the spec: integer-literal strings — an optional sign
followed by one or more digits. -/
def isIntLit : List Char → Bool
  | '-' :: rest => isDigits rest
  | '+' :: rest => isDigits rest
  | l => isDigits l

/-- Numeric value of an integer literal. -/
def parseIntLit : List Char → Int
  | '-' :: rest => -(digitsToNat rest : Int)
  | '+' :: rest => (digitsToNat rest : Int)
  | l => (digitsToNat l : Int)

/-- Digit run, then a decimal point, then a digit run, at least one digit in
all. -/
def isFloatCore (l : List Char) : Bool :=
  let ip := l.takeWhile (·.isDigit)
  match l.dropWhile (·.isDigit) with
  | '.' :: frac => frac.all (·.isDigit) && (!ip.isEmpty || !frac.isEmpty)
  | _ => false

/-- Modelled from the spec: floating-point-literal strings — an optional
sign, then a decimal-point mantissa. -/
def isFloatLit : List Char → Bool
  | '-' :: rest => isFloatCore rest
  | '+' :: rest => isFloatCore rest
  | l => isFloatCore l

/-- Lower-cased character content of a string. -/
def lowerChars (s : String) : List Char := s.data.map Char.toLower

/-- Modelled from the spec: natural-type inference of a substituted
whole-value reference (spec section 4.2, step 3) — case-insensitive
true/false as Boolean, null / empty-equivalent tokens as Null, integer
literals as Integer, float literals as Float, anything else as String. -/
def inferScalar (s : String) : ConfigTree :=
  if lowerChars s = [ 't', 'r', 'u', 'e' ] then .bool true
  else if lowerChars s = [ 'f', 'a', 'l', 's', 'e' ] then .bool false
  else if s.data = [] || lowerChars s = [ 'n', 'u', 'l', 'l' ] || s.data = [ '~' ] then .null
  else if isIntLit s.data then .int (parseIntLit s.data)
  else if isFloatLit s.data then .float s
  else .str s

/-- Modelled from the spec: substitution of a single segment — literal text
passes through, a reference resolves via the environment lookup, falling
back to its DEFAULT verbatim, and failing with the missing variable's name
when absent with no DEFAULT clause (spec section 4.2, step 2). -/
def substSeg (lk : String → Option String) : Seg → Except String String
  | .lit s => .ok s
  | .ref n d =>
    match lk n with
    | some v => .ok v
    | none =>
      match d with
      | some dv => .ok dv
      | none => .error n

/-- Substitute a whole segment list left to right; the first missing
reference wins. -/
def substAll (lk : String → Option String) : List Seg → Except String (List String)
  | [] => .ok []
  | seg :: rest =>
    match substSeg lk seg with
    | .error e => .error e
    | .ok v => (substAll lk rest).map (v :: ·)

/-- Concatenation of a list of strings. -/
def joinAll : List String → String
  | [] => ""
  | s :: rest => s ++ joinAll rest

/-- Modelled from the spec: resolution of one string scalar.  A single
reference spanning the whole string is re-typed by natural-type inference;
any other mix of segments is substituted by plain concatenation and stays a
String (spec section 4.2, steps 3 and 4). -/
def resolveString (lk : String → Option String) (s : String) : Except String ConfigTree :=
  match parseSegs s with
  | [ Seg.ref n d ] => (substSeg lk (.ref n d)).map inferScalar
  | segs => (substAll lk segs).map (fun parts => .str (joinAll parts))

mutual

/-- Modelled from the spec: deep_substitute_env_vars of
pydantic_settings_sources/utils.py (absent from src/) — the depth-first
traversal that rebuilds mappings and sequences with each child resolved,
passes non-string scalars through, and rewrites string scalars
(spec section 4.2).  An error is the name of the first missing variable. -/
def resolve (lk : String → Option String) : ConfigTree → Except String ConfigTree
  | .str s => resolveString lk s
  | .int n => .ok (.int n)
  | .float l => .ok (.float l)
  | .bool b => .ok (.bool b)
  | .null => .ok .null
  | .seq xs => (resolveList lk xs).map .seq
  | .map kvs => (resolveKVs lk kvs).map .map
termination_by t => sizeOf t

/-- Resolve every element of a sequence in order. -/
def resolveList (lk : String → Option String) :
    List ConfigTree → Except String (List ConfigTree)
  | [] => .ok []
  | x :: xs => do
    let y ← resolve lk x
    let ys ← resolveList lk xs
    .ok (y :: ys)
termination_by xs => sizeOf xs

/-- Resolve every value of a mapping in order, keeping keys. -/
def resolveKVs (lk : String → Option String) :
    List (String × ConfigTree) → Except String (List (String × ConfigTree))
  | [] => .ok []
  | (k, v) :: kvs => do
    let w ← resolve lk v
    let ws ← resolveKVs lk kvs
    .ok ((k, w) :: ws)
termination_by kvs => sizeOf kvs

end

/-- First-occurrence lookup in an association list, mirroring a Python dict
read. -/
def lookupKV : List (String × ConfigTree) → String → Option ConfigTree
  | [], _ => none
  | (k, v) :: rest, q => if k = q then some v else lookupKV rest q

/-- Replace the value at the first occurrence of a key, keeping its
position, mirroring a Python dict write to an existing key. -/
def replaceKey : List (String × ConfigTree) → String → ConfigTree →
    List (String × ConfigTree)
  | [], _, _ => []
  | (k, v) :: rest, q, w => if k = q then (k, w) :: rest else (k, v) :: replaceKey rest q w

/-- Mapping test. -/
def isMapB : ConfigTree → Bool
  | .map _ => true
  | _ => false

/-- Sequence test. -/
def isSeqB : ConfigTree → Bool
  | .seq _ => true
  | _ => false

mutual

/-- Modelled from the spec: the deep-merge of deepmerge.always_merger as
sources.py applies it (spec section 4.1) — mapping into mapping merges
recursively by key, sequence into sequence concatenates, and any other
combination lets the new value fully replace the old one. -/
def mergeTree : ConfigTree → ConfigTree → ConfigTree
  | .map a, .map b => .map (mergeInto a b)
  | .seq a, .seq b => .seq (a ++ b)
  | _, b => b
termination_by t1 t2 => sizeOf t2

/-- Merge the entries of the second mapping into the first, one at a time in
order: a key already present has its value merged in place, a new key is
appended. -/
def mergeInto : List (String × ConfigTree) → List (String × ConfigTree) →
    List (String × ConfigTree)
  | a, [] => a
  | a, (k, w) :: rest =>
    match lookupKV a k with
    | some v => mergeInto (replaceKey a k (mergeTree v w)) rest
    | none => mergeInto (a ++ [ (k, w) ]) rest
termination_by a b => sizeOf b

end

/-- Effect on the accumulator of the bare statement
always_merger.merge(config, t) at sources.py lines 44 and 83: the call's
return value is discarded, and deepmerge mutates the base in place only
when both sides are mappings (inside that case every nested result is
written back by key assignment, so nested merging follows the full
deep-merge); any other top-level combination computes a fresh value,
returns it, and leaves the accumulator untouched. -/
def mergeStatement (acc t : ConfigTree) : ConfigTree :=
  match acc, t with
  | .map a, .map b => .map (mergeInto a b)
  | a, _ => a

/-- Code-point lexicographic order on character lists, as Python compares
file-name strings. -/
def lexLe : List Char → List Char → Bool
  | [], _ => true
  | _ :: _, [] => false
  | a :: as_, b :: bs => a < b || (a = b && lexLe as_ bs)

/-- Name order on directory entries. -/
def fileLe (a b : String × Except String ConfigTree) : Bool := lexLe a.1.data b.1.data

/-- Insertion of one directory entry into a name-sorted list. -/
def insertFile (x : String × Except String ConfigTree) :
    List (String × Except String ConfigTree) → List (String × Except String ConfigTree)
  | [] => [ x ]
  | y :: ys => if fileLe x y then x :: y :: ys else y :: insertFile x ys

/-- Lexicographic sort of one directory's file entries, embedding the
sorted call of sources.py lines 41 and 80. -/
def sortFiles : List (String × Except String ConfigTree) →
    List (String × Except String ConfigTree)
  | [] => []
  | x :: xs => insertFile x (sortFiles xs)

/-- Case-sensitive suffix test on strings, embedding Python's endswith. -/
def endsWith (s e : String) : Bool := e.data.isSuffixOf s.data

/-- Directory tree: each node lists its regular files (name and abstract
parse outcome, the parser collaborator of spec section 6) and its
subdirectories, both in the order the filesystem enumerates them. -/
inductive DirT where
  | node (files : List (String × Except String ConfigTree))
      (subdirs : List (String × DirT))

/-- Underlying cause carried by a file-parsing error: the format parser's
failure, or (for the TOML front end's re-wrap) a missing variable. -/
inductive Cause where
  | parse (msg : String)
  | missingVar (n : String)
  deriving DecidableEq

/-- Error taxonomy of pydantic_settings_sources/errors.py (spec section 7):
a contributing file was unreadable or unparsable, or a reference named an
absent environment variable. -/
inductive SourceError where
  | configFileParsing (path : String) (cause : Cause)
  | missingEnvVar (n : String)
  deriving DecidableEq

/-- What the configured path resolves to on the filesystem: a single file
with its parse outcome, a directory tree, or nothing. -/
inductive PathTarget where
  | isFile (pr : Except String ConfigTree)
  | isDir (d : DirT)
  | absent

/-- Inner loop of sources.py lines 41-44 and 80-83: iterate one directory's
already-sorted file list, keep names ending in a configured extension,
parse each and run the merge statement on the accumulator — whose return
value line 44/83 discards, so only the in-place mapping-into-mapping merge
lands in config — failing on the first parse error with that file's
path. -/
def codeFiles (acc : ConfigTree) (pre : String) (exts : List String) :
    List (String × Except String ConfigTree) → Except SourceError ConfigTree
  | [] => .ok acc
  | (nm, pr) :: rest =>
    if exts.any (fun e => endsWith nm e) then
      match pr with
      | .error m => .error (.configFileParsing (pre ++ ("/") ++ nm) (.parse m))
      | .ok t => codeFiles (mergeStatement acc t) pre exts rest
    else codeFiles acc pre exts rest

mutual

/-- Walk of sources.py lines 40-44 and 79-83: os.walk yields the directory
itself first (its files sorted, filtered and merged in order), then each
subdirectory in enumeration order, the accumulator threading through. -/
def codeWalk (acc : ConfigTree) (pre : String) (exts : List String) :
    DirT → Except SourceError ConfigTree
  | .node files subdirs => do
    let acc1 ← codeFiles acc pre exts (sortFiles files)
    codeSubdirs acc1 pre exts subdirs
termination_by d => sizeOf d

/-- Visit subdirectories in enumeration order, threading the accumulator. -/
def codeSubdirs (acc : ConfigTree) (pre : String) (exts : List String) :
    List (String × DirT) → Except SourceError ConfigTree
  | [] => .ok acc
  | (nm, d) :: rest => do
    let acc1 ← codeWalk acc (pre ++ ("/") ++ nm) exts d
    codeSubdirs acc1 pre exts rest
termination_by l => sizeOf l

end

mutual

/-- MergeSet of spec section 3 (written from the spec's words, for the
refinement theorem): the ordered list of contributing (path, parse outcome)
pairs — directory-walk order, files within each directory sorted
lexicographically by name, only names ending in a configured extension. -/
def mergeSetOf (pre : String) (exts : List String) :
    DirT → List (String × Except String ConfigTree)
  | .node files subdirs =>
    ((sortFiles files).filter (fun fe => exts.any (fun e => endsWith fe.1 e))).map
        (fun fe => (pre ++ ("/") ++ fe.1, fe.2))
      ++ mergeSetList pre exts subdirs
termination_by d => sizeOf d

/-- MergeSet contribution of a subdirectory list, in enumeration order. -/
def mergeSetList (pre : String) (exts : List String) :
    List (String × DirT) → List (String × Except String ConfigTree)
  | [] => []
  | (nm, d) :: rest =>
    mergeSetOf (pre ++ ("/") ++ nm) exts d ++ mergeSetList pre exts rest
termination_by l => sizeOf l

end

/-- Fold of spec section 4.1: deep-merge the MergeSet's trees into an
accumulator in order, aborting on the first parse failure with that file's
path. -/
def loadFold (acc : ConfigTree) :
    List (String × Except String ConfigTree) → Except SourceError ConfigTree
  | [] => .ok acc
  | (p, .error m) :: _ => .error (.configFileParsing p (.parse m))
  | (_, .ok t) :: rest => loadFold (mergeTree acc t) rest

/-- Per-file effect of the code's loop, in MergeSet order: a parse failure
aborts with that file's path, a parsed tree passes through the merge
statement's in-place semantics (a non-mapping tree leaves the accumulator
unchanged). -/
def stmtFold (acc : ConfigTree) :
    List (String × Except String ConfigTree) → Except SourceError ConfigTree
  | [] => .ok acc
  | (p, .error m) :: _ => .error (.configFileParsing p (.parse m))
  | (_, .ok t) :: rest => stmtFold (mergeStatement acc t) rest

/-- Load step of sources.py lines 39-46 and 78-85: a directory is walked and
merged starting from an empty mapping, a single file's parse outcome is
taken directly, a path that exists as neither yields the empty mapping with
no error. -/
def loadPath (path : String) (t : PathTarget) (exts : List String) :
    Except SourceError ConfigTree :=
  match t with
  | .isDir d => codeWalk (.map []) path exts d
  | .isFile pr =>
    match pr with
    | .ok tr => .ok tr
    | .error m => .error (.configFileParsing path (.parse m))
  | .absent => .ok (.map [])

/-- Shared body of both front ends: load, then substitute environment
variables once over the merged tree (sources.py lines 48 and 87), lifting a
substitution failure to MissingEnvVarError. -/
def loadAndResolve (path : String) (t : PathTarget) (exts : List String)
    (lk : String → Option String) : Except SourceError ConfigTree :=
  match loadPath path t exts with
  | .error e => .error e
  | .ok cfg =>
    match resolve lk cfg with
    | .ok r => .ok r
    | .error n => .error (.missingEnvVar n)

/-- Extensions of the TOML front end (sources.py line 42). -/
def tomlExts : List String := [ (".toml") ]

/-- Extensions of the YAML front end (sources.py line 81). -/
def yamlExts : List String := [ (".yaml"), (".yml") ]

/-- TomlEnvConfigSettingsSource.__call__ (sources.py lines 36-50): load and
resolve, but catch MissingEnvVarError and re-raise it wrapped as
ConfigFileParsingError on the configured path. -/
def tomlSourceCall (path : String) (t : PathTarget) (lk : String → Option String) :
    Except SourceError ConfigTree :=
  match loadAndResolve path t tomlExts lk with
  | .error (.missingEnvVar n) => .error (.configFileParsing path (.missingVar n))
  | r => r

/-- YamlEnvConfigSettingsSource.__call__ (sources.py lines 75-91): load and
resolve; its except clauses re-raise both error kinds unchanged. -/
def yamlSourceCall (path : String) (t : PathTarget) (lk : String → Option String) :
    Except SourceError ConfigTree :=
  match loadAndResolve path t yamlExts lk with
  | .error (.missingEnvVar n) => .error (.missingEnvVar n)
  | .error (.configFileParsing p c) => .error (.configFileParsing p c)
  | .ok r => .ok r

/-- Keys of an association list. -/
def keysOf (l : List (String × ConfigTree)) : List String := l.map Prod.fst

/-- Valid reference name: non-empty and made of environment-variable-legal
characters. -/
def validName (n : String) : Prop :=
  n.data ≠ [] ∧ ∀ c ∈ n.data, isEnvChar c = true

mutual

/-- Whether a tree is free of reference occurrences in all its string
scalars. -/
def noRefTree : ConfigTree → Bool
  | .str s => !hasRef s
  | .int _ => true
  | .float _ => true
  | .bool _ => true
  | .null => true
  | .seq xs => noRefList xs
  | .map kvs => noRefKVs kvs
termination_by t => sizeOf t

/-- Reference-freedom of every element of a sequence. -/
def noRefList : List ConfigTree → Bool
  | [] => true
  | x :: xs => noRefTree x && noRefList xs
termination_by xs => sizeOf xs

/-- Reference-freedom of every value of a mapping. -/
def noRefKVs : List (String × ConfigTree) → Bool
  | [] => true
  | (_, v) :: kvs => noRefTree v && noRefKVs kvs
termination_by kvs => sizeOf kvs

end

/-! Helper lemmas: strings, character runs and the reference scanner. -/

/-- Strings with equal character content are equal. -/
theorem strEq_of_data {a b : String} (h : a.data = b.data) : a = b := by
  cases a; cases b; simp_all

/-- A string is empty exactly when its character list is. -/
theorem str_eq_empty_iff (s : String) : s = ("") ↔ s.data = [] := by
  constructor
  · intro h; simp [h]
  · intro h; cases s; simp_all

/-- Appending the empty string on the right is the identity. -/
theorem str_append_empty (s : String) : s ++ ("") = s := by
  apply strEq_of_data; simp [String.data_append]

/-- Appending the empty string on the left is the identity. -/
theorem str_empty_append (s : String) : ("") ++ s = s := by
  apply strEq_of_data; simp [String.data_append]

/-- String concatenation is associative. -/
theorem str_append_assoc (a b c : String) : (a ++ b) ++ c = a ++ (b ++ c) := by
  apply strEq_of_data; simp [String.data_append]

/-- A run satisfying the predicate, stopped by one failing character, is
taken whole by takeWhile. -/
theorem takeWhile_append_of_all {p : Char → Bool} (l1 : List Char) (x : Char) (l2 : List Char)
    (h1 : ∀ c ∈ l1, p c = true) (h2 : p x = false) :
    (l1 ++ x :: l2).takeWhile p = l1 := by
  induction l1 with
  | nil => simp [List.takeWhile_cons, h2]
  | cons c cs ih =>
    have hc : p c = true := h1 c (by simp)
    simp only [List.cons_append, List.takeWhile_cons, hc, if_true]
    simp [ih (fun d hd => h1 d (by simp [hd]))]

/-- A run satisfying the predicate, stopped by one failing character, is
dropped whole by dropWhile. -/
theorem dropWhile_append_of_all {p : Char → Bool} (l1 : List Char) (x : Char) (l2 : List Char)
    (h1 : ∀ c ∈ l1, p c = true) (h2 : p x = false) :
    (l1 ++ x :: l2).dropWhile p = x :: l2 := by
  induction l1 with
  | nil => simp [List.dropWhile_cons, h2]
  | cons c cs ih =>
    have hc : p c = true := h1 c (by simp)
    simp only [List.cons_append, List.dropWhile_cons, hc, if_true]
    exact ih (fun d hd => h1 d (by simp [hd]))

/-- Scanning a well-formed name-and-close reference head yields the name,
no default, and the text after the closing brace. -/
theorem scanRef_name_close (n rest : List Char)
    (hne : n ≠ []) (hall : ∀ c ∈ n, isEnvChar c = true) :
    scanRef (n ++ '}' :: rest) = some (String.mk n, none, rest) := by
  have hbr : isEnvChar '}' = false := by decide
  have ht : (n ++ '}' :: rest).takeWhile isEnvChar = n :=
    takeWhile_append_of_all n '}' rest hall hbr
  have hd : (n ++ '}' :: rest).dropWhile isEnvChar = '}' :: rest :=
    dropWhile_append_of_all n '}' rest hall hbr
  have hne2 : n.isEmpty = false := by simpa [List.isEmpty_iff] using hne
  simp only [scanRef, ht, hd, hne2]
  simp

/-- Scanning a well-formed defaulted reference head yields the name, the
default text (up to the first closing brace), and the text after it. -/
theorem scanRef_name_default (n d rest : List Char)
    (hne : n ≠ []) (hall : ∀ c ∈ n, isEnvChar c = true) (hd : ∀ c ∈ d, c ≠ '}') :
    scanRef (n ++ ':' :: '-' :: (d ++ '}' :: rest)) =
      some (String.mk n, some (String.mk d), rest) := by
  have hco : isEnvChar ':' = false := by decide
  have ht : (n ++ ':' :: '-' :: (d ++ '}' :: rest)).takeWhile isEnvChar = n :=
    takeWhile_append_of_all n ':' _ hall hco
  have hdr : (n ++ ':' :: '-' :: (d ++ '}' :: rest)).dropWhile isEnvChar =
      ':' :: '-' :: (d ++ '}' :: rest) :=
    dropWhile_append_of_all n ':' _ hall hco
  have hall2 : ∀ c ∈ d, (c != '}') = true := by
    intro c hc; simpa [bne_iff_ne] using hd c hc
  have hbr2 : (('}' : Char) != '}') = false := by decide
  have ht2 : (d ++ '}' :: rest).takeWhile (fun c => c != '}') = d :=
    takeWhile_append_of_all d '}' rest hall2 hbr2
  have hd2 : (d ++ '}' :: rest).dropWhile (fun c => c != '}') = '}' :: rest :=
    dropWhile_append_of_all d '}' rest hall2 hbr2
  have hne2 : n.isEmpty = false := by simpa [List.isEmpty_iff] using hne
  simp only [scanRef, ht, hdr, hne2, ht2, hd2]
  simp

/-- A successful scan leaves no more text than it was given. -/
theorem scanRef_rest_le (cs : List Char) (n : String) (d : Option String)
    (rest : List Char) (h : scanRef cs = some (n, d, rest)) :
    rest.length ≤ cs.length := by
  simp only [scanRef] at h
  split at h
  · exact absurd h (by simp)
  · split at h
    · rename_i heq
      simp only [Option.some.injEq, Prod.mk.injEq] at h
      obtain ⟨-, -, hrest⟩ := h
      subst hrest
      have h1 : (cs.dropWhile isEnvChar).length ≤ cs.length :=
        (List.dropWhile_suffix isEnvChar).length_le
      rw [heq] at h1
      simp at h1
      omega
    · rename_i rest1 heq
      split at h
      · rename_i heq2
        simp only [Option.some.injEq, Prod.mk.injEq] at h
        obtain ⟨-, -, hrest⟩ := h
        subst hrest
        have h1 : (cs.dropWhile isEnvChar).length ≤ cs.length :=
          (List.dropWhile_suffix isEnvChar).length_le
        rw [heq] at h1
        have h2 : (rest1.dropWhile (fun c => c != '}')).length ≤ rest1.length :=
          (List.dropWhile_suffix _).length_le
        rw [heq2] at h2
        simp at h1 h2
        omega
      · exact absurd h (by simp)
    · exact absurd h (by simp)

/-- Scanning the empty text flushes the pending literal run. -/
theorem segAux_nil (f : Nat) (acc : List Char) : segAux f acc [] = pushLit acc [] := by
  cases f <;> simp [segAux]

/-- A non-dollar character is consumed as literal text. -/
theorem segAux_lit_step (f : Nat) (acc : List Char) (c : Char) (cs : List Char)
    (hc : c ≠ '$') : segAux (f + 1) acc (c :: cs) = segAux f (c :: acc) cs := by
  simp [segAux, hc]

/-- A dollar-brace head with a well-formed reference behind it emits the
pending literal run and the reference. -/
theorem segAux_ref_step (f : Nat) (acc cs2 : List Char) (n : String) (d : Option String)
    (rest : List Char) (h : scanRef cs2 = some (n, d, rest)) :
    segAux (f + 1) acc ('$' :: '{' :: cs2) = pushLit acc (Seg.ref n d :: segAux f [] rest) := by
  simp [segAux, h]

/-- A dollar-brace head with malformed text behind it is literal. -/
theorem segAux_ref_fail (f : Nat) (acc cs2 : List Char) (h : scanRef cs2 = none) :
    segAux (f + 1) acc ('$' :: '{' :: cs2) = segAux f ('$' :: acc) ('{' :: cs2) := by
  simp [segAux, h]

/-- A final dollar is literal. -/
theorem segAux_dollar_end (f : Nat) (acc : List Char) :
    segAux (f + 1) acc ['$'] = segAux f ('$' :: acc) [] := by
  simp [segAux]

/-- A dollar not followed by an opening brace is literal. -/
theorem segAux_dollar_nonbrace (f : Nat) (acc : List Char) (c2 : Char) (cs2 : List Char)
    (h : c2 ≠ '{') :
    segAux (f + 1) acc ('$' :: c2 :: cs2) = segAux f ('$' :: acc) (c2 :: cs2) := by
  simp [segAux, h]

/-- A whole dollar-free run is consumed as literal text, one fuel unit per
character. -/
theorem segAux_lit_chunk (pre : List Char) : ∀ (f : Nat) (acc cs : List Char),
    (∀ c ∈ pre, c ≠ '$') →
    segAux (pre.length + f) acc (pre ++ cs) = segAux f (pre.reverse ++ acc) cs := by
  induction pre with
  | nil => intro f acc cs _; simp
  | cons c pr ih =>
    intro f acc cs h
    have hc : c ≠ '$' := h c (by simp)
    have hlen : (c :: pr).length + f = (pr.length + f) + 1 := by simp; omega
    rw [hlen, List.cons_append, segAux_lit_step _ _ _ _ hc,
      ih _ _ _ (fun d hd => h d (by simp [hd]))]
    simp

/-- A dollar-free tail scans to a single flushed literal. -/
theorem segAux_lit_end (l : List Char) (acc : List Char) (h : ∀ c ∈ l, c ≠ '$') :
    segAux l.length acc l = pushLit (l.reverse ++ acc) [] := by
  have h1 := segAux_lit_chunk l 0 acc [] h
  simpa [segAux_nil] using h1

/-- Fuel does not matter once it covers the text's length. -/
theorem segAux_fuel_irrel : ∀ (f g : Nat) (acc cs : List Char),
    cs.length ≤ f → cs.length ≤ g → segAux f acc cs = segAux g acc cs := by
  intro f
  induction f with
  | zero =>
    intro g acc cs hf _
    have : cs = [] := by
      cases cs with
      | nil => rfl
      | cons a l => simp at hf
    subst this
    simp [segAux_nil]
  | succ f ih =>
    intro g acc cs hf hg
    cases cs with
    | nil => simp [segAux_nil]
    | cons c cs1 =>
      have hg1 : ∃ g1, g = g1 + 1 := by
        cases g with
        | zero => simp at hg
        | succ g1 => exact ⟨g1, rfl⟩
      obtain ⟨g1, rfl⟩ := hg1
      simp only [List.length_cons] at hf hg
      by_cases hc : c = '$'
      · subst hc
        cases cs1 with
        | nil =>
          rw [segAux_dollar_end, segAux_dollar_end, segAux_nil, segAux_nil]
        | cons c2 cs2 =>
          by_cases hc2 : c2 = '{'
          · subst hc2
            cases hscan : scanRef cs2 with
            | none =>
              rw [segAux_ref_fail _ _ _ hscan, segAux_ref_fail _ _ _ hscan]
              have hl : ('{' :: cs2).length ≤ f := by simp at hf ⊢; omega
              have hl2 : ('{' :: cs2).length ≤ g1 := by simp at hg ⊢; omega
              exact ih g1 _ _ hl hl2
            | some t =>
              obtain ⟨n, d, rest⟩ := t
              rw [segAux_ref_step _ _ _ _ _ _ hscan, segAux_ref_step _ _ _ _ _ _ hscan]
              have hrest := scanRef_rest_le cs2 n d rest hscan
              have hl : rest.length ≤ f := by simp at hf; omega
              have hl2 : rest.length ≤ g1 := by simp at hg; omega
              rw [ih g1 [] rest hl hl2]
          · rw [segAux_dollar_nonbrace _ _ _ _ hc2, segAux_dollar_nonbrace _ _ _ _ hc2]
            exact ih g1 _ _ (by simpa using hf) (by simpa using hg)
      · rw [segAux_lit_step _ _ _ _ hc, segAux_lit_step _ _ _ _ hc]
        exact ih g1 _ _ (by omega) (by omega)

/-- A reference segment sits in any push of a literal run over it. -/
theorem ref_mem_pushLit (acc : List Char) (n : String) (d : Option String)
    (tail : List Seg) : Seg.ref n d ∈ pushLit acc (Seg.ref n d :: tail) := by
  by_cases h : acc.isEmpty <;> simp [pushLit, h]

/-- When the scan of a text produces only literal segments, their
concatenation is exactly the pending run plus that text: the scanner loses
no characters. -/
theorem segAux_all_lit_join : ∀ (f : Nat) (acc cs : List Char), cs.length ≤ f →
    (∀ seg ∈ segAux f acc cs, isRefSeg seg = false) →
    joinAll ((segAux f acc cs).map litText) = String.mk (acc.reverse ++ cs) := by
  intro f
  induction f with
  | zero =>
    intro acc cs hf _
    have hnil : cs = [] := by
      cases cs with
      | nil => rfl
      | cons a l => simp at hf
    subst hnil
    by_cases h : acc.isEmpty
    · have : acc = [] := by simpa [List.isEmpty_iff] using h
      subst this
      simp [segAux_nil, pushLit, joinAll]
    · simp [segAux_nil, pushLit, h, joinAll, litText, str_append_empty]
  | succ f ih =>
    intro acc cs hf hall
    cases cs with
    | nil =>
      rw [segAux_nil] at hall ⊢
      by_cases h : acc.isEmpty
      · have : acc = [] := by simpa [List.isEmpty_iff] using h
        subst this
        simp [pushLit, joinAll]
      · simp [pushLit, h, joinAll, litText, str_append_empty]
    | cons c cs1 =>
      simp only [List.length_cons] at hf
      by_cases hc : c = '$'
      · subst hc
        cases cs1 with
        | nil =>
          rw [segAux_dollar_end] at hall ⊢
          have h1 := ih ('$' :: acc) [] (by simp) hall
          rw [h1]
          simp
        | cons c2 cs2 =>
          by_cases hc2 : c2 = '{'
          · subst hc2
            cases hscan : scanRef cs2 with
            | none =>
              rw [segAux_ref_fail _ _ _ hscan] at hall ⊢
              have h1 := ih ('$' :: acc) ('{' :: cs2) (by simpa using hf) hall
              rw [h1]
              simp
            | some t =>
              obtain ⟨n, d, rest⟩ := t
              rw [segAux_ref_step _ _ _ _ _ _ hscan] at hall
              have hmem := ref_mem_pushLit acc n d (segAux f [] rest)
              have := hall _ hmem
              simp [isRefSeg] at this
          · rw [segAux_dollar_nonbrace _ _ _ _ hc2] at hall ⊢
            have h1 := ih ('$' :: acc) (c2 :: cs2) (by simpa using hf) hall
            rw [h1]
            simp
      · rw [segAux_lit_step _ _ _ _ hc] at hall ⊢
        have h1 := ih (c :: acc) cs1 (by omega) hall
        rw [h1]
        simp

/-- Substitution of an all-literal segment list recovers the literal
texts. -/
theorem substAll_all_lit (lk : String → Option String) :
    ∀ segs : List Seg, (∀ seg ∈ segs, isRefSeg seg = false) →
    substAll lk segs = .ok (segs.map litText) := by
  intro segs
  induction segs with
  | nil => intro _; simp [substAll]
  | cons seg rest ih =>
    intro h
    cases seg with
    | lit s =>
      have h1 := ih (fun x hx => h x (by simp [hx]))
      simp [substAll, substSeg, h1, litText, Except.map]
    | ref n d =>
      have := h (Seg.ref n d) (by simp)
      simp [isRefSeg] at this

/-- When the scanned segments are anything but a single whole-string
reference, resolution substitutes them all and concatenates. -/
theorem resolveString_fallback (lk : String → Option String) (s : String)
    (segs : List Seg) (hp : parseSegs s = segs)
    (hshape : ∀ n d, segs ≠ [ Seg.ref n d ]) :
    resolveString lk s =
      (substAll lk segs).map (fun parts => ConfigTree.str (joinAll parts)) := by
  unfold resolveString
  rw [hp]
  cases segs with
  | nil => rfl
  | cons seg tail =>
    cases seg with
    | lit t => rfl
    | ref n d =>
      cases tail with
      | nil => exact absurd rfl (hshape n d)
      | cons x xs => rfl

/-- A string scalar without reference occurrences resolves to itself,
byte for byte, whatever the environment holds. -/
theorem resolveString_no_ref (lk : String → Option String) (s : String)
    (h : hasRef s = false) : resolveString lk s = .ok (.str s) := by
  have hall : ∀ seg ∈ parseSegs s, isRefSeg seg = false := by
    intro seg hseg
    have := List.any_eq_false.mp h
    simpa using this seg hseg
  have hshape : ∀ n d, parseSegs s ≠ [ Seg.ref n d ] := by
    intro n d hcon
    have := hall (Seg.ref n d) (by simp [hcon])
    simp [isRefSeg] at this
  rw [resolveString_fallback lk s (parseSegs s) rfl hshape]
  rw [substAll_all_lit lk (parseSegs s) hall]
  have hj : joinAll ((parseSegs s).map litText) = String.mk ([].reverse ++ s.data) :=
    segAux_all_lit_join s.data.length [] s.data (le_refl _) hall
  simp only [List.reverse_nil, List.nil_append] at hj
  simp [Except.map, hj]

/-- Character content of the dollar-brace opener. -/
theorem data_dollar_brace : ("$\x7b" : String).data = [ '$', '{' ] := rfl

/-- Character content of the closing brace. -/
theorem data_close_brace : ("\x7d" : String).data = [ '}' ] := rfl

/-- Character content of the default separator. -/
theorem data_default_sep : (":-" : String).data = [ ':', '-' ] := rfl

/-- Scanning a string made of dollar-free text, one whole reference and
dollar-free text yields exactly the pending literal, the reference and the
trailing literal. -/
theorem parseSegs_decompose (pre n suf : String)
    (hpre : ∀ c ∈ pre.data, c ≠ '$') (hn : validName n)
    (hsuf : ∀ c ∈ suf.data, c ≠ '$') :
    parseSegs (pre ++ ("$\x7b") ++ n ++ ("\x7d") ++ suf) =
      pushLit pre.data.reverse (Seg.ref n none :: pushLit suf.data.reverse []) := by
  obtain ⟨hne, hall⟩ := hn
  have hdata : (pre ++ ("$\x7b") ++ n ++ ("\x7d") ++ suf).data
      = pre.data ++ ('$' :: '{' :: (n.data ++ '}' :: suf.data)) := by
    simp [String.data_append, data_dollar_brace, data_close_brace]
  have hscan : scanRef (n.data ++ '}' :: suf.data) = some (n, none, suf.data) :=
    scanRef_name_close n.data suf.data hne hall
  unfold parseSegs
  rw [hdata]
  rw [show (pre.data ++ ('$' :: '{' :: (n.data ++ '}' :: suf.data))).length
      = pre.data.length + ((n.data.length + suf.data.length + 2) + 1) from by simp; omega]
  rw [segAux_lit_chunk pre.data _ [] _ hpre]
  rw [segAux_ref_step _ _ _ _ _ _ hscan]
  rw [segAux_fuel_irrel _ suf.data.length [] suf.data (by omega) (le_refl _)]
  rw [segAux_lit_end suf.data [] hsuf]
  simp

/-- Scanning a string that is exactly one reference yields that single
reference segment. -/
theorem parseSegs_whole_ref (n : String) (hn : validName n) :
    parseSegs (("$\x7b") ++ n ++ ("\x7d")) = [ Seg.ref n none ] := by
  obtain ⟨hne, hall⟩ := hn
  have hscan : scanRef (n.data ++ '}' :: ([] : List Char)) = some (n, none, []) :=
    scanRef_name_close n.data [] hne hall
  have hdata : (("$\x7b") ++ n ++ ("\x7d")).data
      = '$' :: '{' :: (n.data ++ '}' :: ([] : List Char)) := by
    simp [String.data_append, data_dollar_brace, data_close_brace]
  unfold parseSegs
  rw [hdata]
  rw [show ('$' :: '{' :: (n.data ++ '}' :: ([] : List Char))).length
      = (n.data.length + 2) + 1 from by simp <;> omega]
  rw [segAux_ref_step _ _ _ _ _ _ hscan]
  rw [segAux_nil]
  simp [pushLit]

/-- Scanning a string that is exactly one defaulted reference (default free
of closing braces) yields that single reference segment with its default
verbatim. -/
theorem parseSegs_with_default (n d : String) (hn : validName n)
    (hd : ∀ c ∈ d.data, c ≠ '}') :
    parseSegs (("$\x7b") ++ n ++ (":-") ++ d ++ ("\x7d")) = [ Seg.ref n (some d) ] := by
  obtain ⟨hne, hall⟩ := hn
  have hscan : scanRef (n.data ++ ':' :: '-' :: (d.data ++ '}' :: ([] : List Char)))
      = some (n, some d, []) :=
    scanRef_name_default n.data d.data [] hne hall hd
  have hdata : (("$\x7b") ++ n ++ (":-") ++ d ++ ("\x7d")).data
      = '$' :: '{' :: (n.data ++ ':' :: '-' :: (d.data ++ '}' :: ([] : List Char))) := by
    simp [String.data_append, data_dollar_brace, data_close_brace, data_default_sep]
  unfold parseSegs
  rw [hdata]
  rw [show ('$' :: '{' :: (n.data ++ ':' :: '-' :: (d.data ++ '}' :: ([] : List Char)))).length
      = (n.data.length + d.data.length + 4) + 1 from by simp; omega]
  rw [segAux_ref_step _ _ _ _ _ _ hscan]
  rw [segAux_nil]
  simp [pushLit]

/-- Scanning two adjacent whole references yields the two reference
segments. -/
theorem parseSegs_two_refs (n1 n2 : String) (h1 : validName n1) (h2 : validName n2) :
    parseSegs (("$\x7b") ++ n1 ++ ("\x7d") ++ ("$\x7b") ++ n2 ++ ("\x7d")) =
      [ Seg.ref n1 none, Seg.ref n2 none ] := by
  obtain ⟨hne1, hall1⟩ := h1
  obtain ⟨hne2, hall2⟩ := h2
  have hscan2 : scanRef (n2.data ++ '}' :: ([] : List Char)) = some (n2, none, []) :=
    scanRef_name_close n2.data [] hne2 hall2
  have hscan1 : scanRef (n1.data ++ '}' :: ('$' :: '{' :: (n2.data ++ '}' :: ([] : List Char))))
      = some (n1, none, '$' :: '{' :: (n2.data ++ '}' :: ([] : List Char))) :=
    scanRef_name_close n1.data _ hne1 hall1
  have hdata : (("$\x7b") ++ n1 ++ ("\x7d") ++ ("$\x7b") ++ n2 ++ ("\x7d")).data
      = '$' :: '{' :: (n1.data ++ '}' :: ('$' :: '{' :: (n2.data ++ '}' :: ([] : List Char)))) := by
    simp [String.data_append, data_dollar_brace, data_close_brace]
  unfold parseSegs
  rw [hdata]
  rw [show ('$' :: '{' ::
        (n1.data ++ '}' :: ('$' :: '{' :: (n2.data ++ '}' :: ([] : List Char))))).length
      = (n1.data.length + n2.data.length + 5) + 1 from by simp; omega]
  rw [segAux_ref_step _ _ _ _ _ _ hscan1]
  rw [segAux_fuel_irrel _ ((n2.data.length + 1) + 1 + 1) [] _ (by simp <;> omega) (by simp <;> omega)]
  rw [show ((n2.data.length + 1) + 1 + 1) = ((n2.data.length + 1) + 1) + 1 from rfl]
  rw [segAux_ref_step _ _ _ _ _ _ hscan2]
  rw [segAux_nil]
  simp [pushLit]

/-- Structural induction over ConfigTree with member hypotheses for the
nested lists. -/
theorem configTreeInd (P : ConfigTree → Prop)
    (h1 : ∀ s, P (.str s)) (h2 : ∀ n, P (.int n)) (h3 : ∀ l, P (.float l))
    (h4 : ∀ b, P (.bool b)) (h5 : P .null)
    (h6 : ∀ xs, (∀ x ∈ xs, P x) → P (.seq xs))
    (h7 : ∀ kvs, (∀ k v, (k, v) ∈ kvs → P v) → P (.map kvs)) :
    ∀ t, P t
  | .str s => h1 s
  | .int n => h2 n
  | .float l => h3 l
  | .bool b => h4 b
  | .null => h5
  | .seq xs => h6 xs (fun x hx => configTreeInd P h1 h2 h3 h4 h5 h6 h7 x)
  | .map kvs => h7 kvs (fun k v hv => configTreeInd P h1 h2 h3 h4 h5 h6 h7 v)
termination_by t => sizeOf t
decreasing_by
  · have := List.sizeOf_lt_of_mem hx
    simp only [ConfigTree.seq.sizeOf_spec]
    omega
  · have := List.sizeOf_lt_of_mem hv
    simp only [ConfigTree.map.sizeOf_spec, Prod.mk.sizeOf_spec] at this ⊢
    omega

/-- Unfolding of resolve at a string scalar. -/
theorem resolve_str (lk : String → Option String) (s : String) :
    resolve lk (.str s) = resolveString lk s := by
  simp [resolve]

/-- A sequence whose elements each resolve to themselves resolves
element-wise to itself. -/
theorem resolveList_ok (lk : String → Option String) :
    ∀ xs : List ConfigTree, (∀ x ∈ xs, resolve lk x = .ok x) →
    resolveList lk xs = .ok xs := by
  intro xs
  induction xs with
  | nil => intro _; simp [resolveList]
  | cons x rest ih =>
    intro h
    have hx := h x (by simp)
    have hrest := ih (fun y hy => h y (by simp [hy]))
    simp only [resolveList, hx, hrest]
    rfl

/-- A mapping whose values each resolve to themselves resolves value-wise
to itself. -/
theorem resolveKVs_ok (lk : String → Option String) :
    ∀ kvs : List (String × ConfigTree), (∀ k v, (k, v) ∈ kvs → resolve lk v = .ok v) →
    resolveKVs lk kvs = .ok kvs := by
  intro kvs
  induction kvs with
  | nil => intro _; simp [resolveKVs]
  | cons kv rest ih =>
    intro h
    obtain ⟨k, v⟩ := kv
    have hv := h k v (by simp)
    have hrest := ih (fun k2 v2 hv2 => h k2 v2 (by simp [hv2]))
    simp only [resolveKVs, hv, hrest]
    rfl

/-- Reference-freedom of a sequence is reference-freedom of each
element. -/
theorem noRefList_mem : ∀ xs : List ConfigTree, noRefList xs = true →
    ∀ x ∈ xs, noRefTree x = true := by
  intro xs
  induction xs with
  | nil => intro _ x hx; simp at hx
  | cons y rest ih =>
    intro h x hx
    simp only [noRefList, Bool.and_eq_true] at h
    rcases List.mem_cons.mp hx with hx2 | hx2
    · subst hx2; exact h.1
    · exact ih h.2 x hx2

/-- Reference-freedom of a mapping is reference-freedom of each value. -/
theorem noRefKVs_mem : ∀ kvs : List (String × ConfigTree), noRefKVs kvs = true →
    ∀ k v, (k, v) ∈ kvs → noRefTree v = true := by
  intro kvs
  induction kvs with
  | nil => intro _ k v hv; simp at hv
  | cons kv2 rest ih =>
    intro h k v hv
    obtain ⟨k2, v2⟩ := kv2
    simp only [noRefKVs, Bool.and_eq_true] at h
    rcases List.mem_cons.mp hv with hv2 | hv2
    · injection hv2 with e1 e2; subst e2; exact h.1
    · exact ih h.2 k v hv2

/-- A tree free of reference occurrences resolves to itself under any
environment. -/
theorem resolve_ok_of_noRef (lk : String → Option String) :
    ∀ t : ConfigTree, noRefTree t = true → resolve lk t = .ok t := by
  apply configTreeInd (fun t => noRefTree t = true → resolve lk t = .ok t)
  · intro s h
    rw [resolve_str]
    apply resolveString_no_ref
    simpa [noRefTree] using h
  · intro n _; simp [resolve]
  · intro l _; simp [resolve]
  · intro b _; simp [resolve]
  · intro _; simp [resolve]
  · intro xs ih h
    have hnr : noRefList xs = true := by simpa [noRefTree] using h
    have := resolveList_ok lk xs (fun x hx => ih x hx (noRefList_mem xs hnr x hx))
    simp [resolve, this, Except.map]
  · intro kvs ih h
    have hnr : noRefKVs kvs = true := by simpa [noRefTree] using h
    have := resolveKVs_ok lk kvs (fun k v hv => ih k v hv (noRefKVs_mem kvs hnr k v hv))
    simp [resolve, this, Except.map]

/-- Rebuilding a string from its own character content is the identity. -/
theorem strMk_data (s : String) : String.mk s.data = s := rfl

/-- Substitution fails with the name of the first reference whose variable
is absent and which has no default, whatever follows it. -/
theorem substAll_first_error (lk : String → Option String) :
    ∀ (l1 : List Seg) (n : String) (l2 : List Seg),
    (∀ seg ∈ l1, (substSeg lk seg).isOk = true) → lk n = none →
    substAll lk (l1 ++ Seg.ref n none :: l2) = .error n := by
  intro l1
  induction l1 with
  | nil =>
    intro n l2 _ hlk
    simp [substAll, substSeg, hlk]
  | cons seg rest ih =>
    intro n l2 hok hlk
    have hs := hok seg (by simp)
    cases hsub : substSeg lk seg with
    | error e => rw [hsub] at hs; simp [Except.isOk, Except.toBool] at hs
    | ok v =>
      have hrest := ih n l2 (fun x hx => hok x (by simp [hx])) hlk
      simp [substAll, hsub, hrest, Except.map]

/-- Claim C2: for a string scalar resolved under a successful lookup, the
substituted result is re-typed exactly when the scalar is one reference
spanning the whole string; a reference beside literal text, or several
references, substitute by plain concatenation and the result stays a
String. -/
theorem resolve_retype_iff_whole_reference :
    (∀ (lk : String → Option String) (n v : String), validName n → lk n = some v →
      resolve lk (.str (("$\x7b") ++ n ++ ("\x7d"))) = .ok (inferScalar v)) ∧
    (∀ (lk : String → Option String) (n v pre suf : String), validName n → lk n = some v →
      (∀ c ∈ pre.data, c ≠ '$') → (∀ c ∈ suf.data, c ≠ '$') →
      (pre ≠ ("") ∨ suf ≠ ("")) →
      resolve lk (.str (pre ++ ("$\x7b") ++ n ++ ("\x7d") ++ suf)) =
        .ok (.str (pre ++ v ++ suf))) ∧
    (∀ (lk : String → Option String) (n1 n2 v1 v2 : String), validName n1 → validName n2 →
      lk n1 = some v1 → lk n2 = some v2 →
      resolve lk (.str (("$\x7b") ++ n1 ++ ("\x7d") ++ ("$\x7b") ++ n2 ++ ("\x7d"))) =
        .ok (.str (v1 ++ v2))) := by
  refine ⟨?_, ?_, ?_⟩
  · intro lk n v hn hlk
    rw [resolve_str]
    unfold resolveString
    rw [parseSegs_whole_ref n hn]
    simp [substSeg, hlk, Except.map]
  · intro lk n v pre suf hn hlk hpre hsuf hne
    rw [resolve_str]
    have hsegs := parseSegs_decompose pre n suf hpre hn hsuf
    by_cases hpe : pre = ("")
    · have hse : suf ≠ ("") := by
        rcases hne with h | h
        · exact absurd hpe h
        · exact h
      have hsd : suf.data ≠ [] := fun hcon => hse ((str_eq_empty_iff suf).mpr hcon)
      rw [hpe] at hsegs ⊢
      have hsegs2 : parseSegs (("") ++ ("$\x7b") ++ n ++ ("\x7d") ++ suf) =
          [ Seg.ref n none, Seg.lit suf ] := by
        rw [hsegs]
        simp [pushLit, List.isEmpty_iff, hsd, strMk_data]
      rw [resolveString_fallback lk _ _ hsegs2 (by simp)]
      simp [substAll, substSeg, hlk, joinAll, Except.map,
        str_append_empty, str_empty_append]
    · have hpd : pre.data ≠ [] := fun hcon => hpe ((str_eq_empty_iff pre).mpr hcon)
      by_cases hse : suf = ("")
      · rw [hse] at hsegs ⊢
        have hsegs2 : parseSegs (pre ++ ("$\x7b") ++ n ++ ("\x7d") ++ ("")) =
            [ Seg.lit pre, Seg.ref n none ] := by
          rw [hsegs]
          simp [pushLit, List.isEmpty_iff, hpd, strMk_data]
        rw [resolveString_fallback lk _ _ hsegs2 (by simp)]
        simp [substAll, substSeg, hlk, joinAll, Except.map, str_append_empty]
      · have hsd : suf.data ≠ [] := fun hcon => hse ((str_eq_empty_iff suf).mpr hcon)
        have hsegs2 : parseSegs (pre ++ ("$\x7b") ++ n ++ ("\x7d") ++ suf) =
            [ Seg.lit pre, Seg.ref n none, Seg.lit suf ] := by
          rw [hsegs]
          simp [pushLit, List.isEmpty_iff, hpd, hsd, strMk_data]
        rw [resolveString_fallback lk _ _ hsegs2 (by simp)]
        simp [substAll, substSeg, hlk, joinAll, Except.map,
          str_append_empty, str_append_assoc]
  · intro lk n1 n2 v1 v2 h1 h2 hlk1 hlk2
    rw [resolve_str]
    rw [resolveString_fallback lk _ _ (parseSegs_two_refs n1 n2 h1 h2) (by simp)]
    simp [substAll, substSeg, hlk1, hlk2, joinAll, Except.map, str_append_empty]

/-- Witness for claim C2 at a concrete mixed-text scalar. -/
theorem resolve_retype_iff_whole_reference_witness :
    resolve (fun q => if q = ("X") then some ("5") else none)
        (.str (("pre-") ++ ("$\x7b") ++ ("X") ++ ("\x7d") ++ ("-suf"))) =
      .ok (.str (("pre-") ++ ("5") ++ ("-suf"))) :=
  resolve_retype_iff_whole_reference.2.1 (fun q => if q = ("X") then some ("5") else none)
    ("X") ("5") ("pre-") ("-suf") (by exact ⟨by decide, by decide⟩) (by decide)
    (by decide) (by decide) (by simp)

/-- Claim C3: a tree holding a string scalar whose first unresolvable
reference has no default fails with that variable's name — the first
missing reference wins and no partial tree is produced, the whole resolve
operation returning only the error. -/
theorem missing_reference_aborts_resolve :
    ∀ (lk : String → Option String) (k s : String) (segs1 segs2 : List Seg) (n : String),
      parseSegs s = segs1 ++ Seg.ref n none :: segs2 →
      (∀ seg ∈ segs1, (substSeg lk seg).isOk = true) →
      lk n = none →
      resolve lk (.map [ (k, .str s) ]) = .error n := by
  intro lk k s segs1 segs2 n hp hok hlk
  have hstr : resolveString lk s = .error n := by
    cases segs1 with
    | nil =>
      cases segs2 with
      | nil =>
        unfold resolveString
        rw [hp]
        simp [substSeg, hlk, Except.map]
      | cons x xs =>
        rw [resolveString_fallback lk s _ hp (by simp)]
        simp [substAll, substSeg, hlk, Except.map]
    | cons y ys =>
      rw [resolveString_fallback lk s _ hp (by simp)]
      rw [substAll_first_error lk (y :: ys) n segs2 hok hlk]
      simp [Except.map]
  simp only [resolve, resolveKVs, resolve_str, hstr]
  rfl

/-- Witness for claim C3 at the spec's own example. -/
theorem missing_reference_aborts_resolve_witness :
    resolve (fun _ => none) (.map [ (("k"), .str ("$\x7bX\x7d")) ]) = .error ("X") :=
  missing_reference_aborts_resolve (fun _ => none) ("k") ("$\x7bX\x7d") [] [] ("X")
    (by decide) (by decide) rfl

/-- Claim C4: a defaulted reference whose variable is absent substitutes the
default verbatim (never re-expanded), and since the reference spans the
whole string the default is re-typed by natural-type inference. -/
theorem default_substituted_verbatim_and_retyped :
    ∀ (lk : String → Option String) (k n d : String), validName n →
      (∀ c ∈ d.data, c ≠ '}') → lk n = none →
      resolve lk (.map [ (k, .str (("$\x7b") ++ n ++ (":-") ++ d ++ ("\x7d"))) ]) =
        .ok (.map [ (k, inferScalar d) ]) := by
  intro lk k n d hn hd hlk
  have hstr : resolveString lk (("$\x7b") ++ n ++ (":-") ++ d ++ ("\x7d")) =
      .ok (inferScalar d) := by
    unfold resolveString
    rw [parseSegs_with_default n d hn hd]
    simp [substSeg, hlk, Except.map]
  simp only [resolve, resolveKVs, resolve_str, hstr]
  rfl

/-- Witness for claim C4 at the spec's own example: the default 5432 comes
back as the Integer 5432, not the String. -/
theorem default_substituted_verbatim_and_retyped_witness :
    resolve (fun _ => none)
        (.map [ (("k"), .str (("$\x7b") ++ ("X") ++ (":-") ++ ("5432") ++ ("\x7d"))) ]) =
      .ok (.map [ (("k"), ConfigTree.int 5432) ]) :=
  default_substituted_verbatim_and_retyped (fun _ => none) ("k") ("X") ("5432")
    (by exact ⟨by decide, by decide⟩) (by decide) rfl

/-- Claim C9: a tree in which no string scalar contains a reference
occurrence resolves to itself under every environment, and resolving again
changes nothing — resolve is a no-op fixed point there. -/
theorem resolve_noop_on_reference_free_trees :
    ∀ (lk : String → Option String) (t : ConfigTree), noRefTree t = true →
      resolve lk t = .ok t ∧ (resolve lk t).bind (resolve lk) = resolve lk t := by
  intro lk t h
  have h1 := resolve_ok_of_noRef lk t h
  refine ⟨h1, ?_⟩
  rw [h1]
  simpa [Except.bind] using h1

/-- Witness for claim C9 at a concrete reference-free scalar. -/
theorem resolve_noop_on_reference_free_trees_witness :
    resolve (fun _ => none) (.str ("literal")) = .ok (.str ("literal")) ∧
      (resolve (fun _ => none) (.str ("literal"))).bind (resolve (fun _ => none)) =
        resolve (fun _ => none) (.str ("literal")) :=
  resolve_noop_on_reference_free_trees (fun _ => none) (.str ("literal"))
    (by simp only [noRefTree]; decide)

/-! Helper lemmas: the deep merge on association lists. -/

/-- Looking up the replaced key finds the new value. -/
theorem lookup_replaceKey_self :
    ∀ (a : List (String × ConfigTree)) (k : String) (v w : ConfigTree),
    lookupKV a k = some v → lookupKV (replaceKey a k w) k = some w := by
  intro a
  induction a with
  | nil => intro k v w h; simp [lookupKV] at h
  | cons kv rest ih =>
    intro k v w h
    obtain ⟨k1, v1⟩ := kv
    by_cases hk : k1 = k
    · subst hk
      simp [replaceKey, lookupKV]
    · simp only [lookupKV, if_neg hk] at h
      simp [replaceKey, lookupKV, hk, ih k v w h]

/-- Replacing one key leaves every other key's lookup unchanged. -/
theorem lookup_replaceKey_ne :
    ∀ (a : List (String × ConfigTree)) (k q : String) (w : ConfigTree), q ≠ k →
    lookupKV (replaceKey a k w) q = lookupKV a q := by
  intro a
  induction a with
  | nil => intro k q w _; simp [replaceKey]
  | cons kv rest ih =>
    intro k q w hq
    obtain ⟨k1, v1⟩ := kv
    by_cases hk : k1 = k
    · subst hk
      have : ¬ k1 = q := fun h => hq h.symm
      simp [replaceKey, lookupKV, this]
    · simp [replaceKey, lookupKV, hk, ih k q w hq]

/-- A key found on the left is found in the concatenation. -/
theorem lookup_append_some :
    ∀ (a b : List (String × ConfigTree)) (q : String) (v : ConfigTree),
    lookupKV a q = some v → lookupKV (a ++ b) q = some v := by
  intro a
  induction a with
  | nil => intro b q v h; simp [lookupKV] at h
  | cons kv rest ih =>
    intro b q v h
    obtain ⟨k1, v1⟩ := kv
    by_cases hk : k1 = q
    · subst hk
      simp [lookupKV] at h
      simp [lookupKV, h]
    · simp only [lookupKV, if_neg hk] at h
      simp [lookupKV, hk, ih b q v h]

/-- A key absent on the left looks up in the right part of the
concatenation. -/
theorem lookup_append_none :
    ∀ (a b : List (String × ConfigTree)) (q : String),
    lookupKV a q = none → lookupKV (a ++ b) q = lookupKV b q := by
  intro a
  induction a with
  | nil => intro b q _; simp
  | cons kv rest ih =>
    intro b q h
    obtain ⟨k1, v1⟩ := kv
    by_cases hk : k1 = q
    · simp [lookupKV, hk] at h
    · simp only [lookupKV, if_neg hk] at h
      simp [lookupKV, hk, ih b q h]

/-- A lookup misses exactly when the key is not among the keys. -/
theorem lookupKV_eq_none_iff :
    ∀ (a : List (String × ConfigTree)) (q : String),
    lookupKV a q = none ↔ q ∉ keysOf a := by
  intro a
  induction a with
  | nil => intro q; simp [lookupKV, keysOf]
  | cons kv rest ih =>
    intro q
    obtain ⟨k1, v1⟩ := kv
    by_cases hk : k1 = q
    · subst hk
      simp [lookupKV, keysOf]
    · simp [lookupKV, hk, keysOf, ih q, Ne.symm hk]

/-- Merging in a mapping that never mentions a key leaves that key's lookup
unchanged. -/
theorem lookup_mergeInto_notin :
    ∀ (b a : List (String × ConfigTree)) (q : String), q ∉ keysOf b →
    lookupKV (mergeInto a b) q = lookupKV a q := by
  intro b
  induction b with
  | nil => intro a q _; simp [mergeInto]
  | cons kv rest ih =>
    intro a q hq
    obtain ⟨k1, w1⟩ := kv
    have hq1 : q ≠ k1 := by
      intro h
      exact hq (by simp [keysOf, h])
    have hqrest : q ∉ keysOf rest := by
      intro h
      exact hq (by simp [keysOf] at h ⊢; exact Or.inr h)
    cases hl : lookupKV a k1 with
    | some v =>
      rw [show mergeInto a ((k1, w1) :: rest) =
          mergeInto (replaceKey a k1 (mergeTree v w1)) rest from by simp [mergeInto, hl]]
      rw [ih _ q hqrest]
      exact lookup_replaceKey_ne a k1 q _ hq1
    | none =>
      rw [show mergeInto a ((k1, w1) :: rest) =
          mergeInto (a ++ [ (k1, w1) ]) rest from by simp [mergeInto, hl]]
      rw [ih _ q hqrest]
      cases hl2 : lookupKV a q with
      | some v => exact lookup_append_some a _ q v hl2
      | none =>
        rw [lookup_append_none a _ q hl2]
        have hne : k1 ≠ q := fun h => hq1 h.symm
        simp [lookupKV, hne]

/-- A key present in both mappings ends up with the recursive merge of its
two values (incoming keys each occur once, as in a Python dict). -/
theorem mergeInto_lookup_both :
    ∀ (b a : List (String × ConfigTree)) (k : String) (v w : ConfigTree),
    (keysOf b).Nodup → lookupKV a k = some v → lookupKV b k = some w →
    lookupKV (mergeInto a b) k = some (mergeTree v w) := by
  intro b
  induction b with
  | nil => intro a k v w _ _ hb; simp [lookupKV] at hb
  | cons kv rest ih =>
    intro a k v w hnd ha hb
    obtain ⟨k1, w1⟩ := kv
    have hnd2 : (keysOf rest).Nodup ∧ k1 ∉ keysOf rest := by
      simp only [keysOf, List.map_cons, List.nodup_cons] at hnd
      exact ⟨hnd.2, hnd.1⟩
    by_cases hk : k1 = k
    · subst hk
      simp only [lookupKV, if_pos rfl] at hb
      injection hb with hb2
      rw [← hb2]
      rw [show mergeInto a ((k1, w1) :: rest) =
          mergeInto (replaceKey a k1 (mergeTree v w1)) rest from by simp [mergeInto, ha]]
      rw [lookup_mergeInto_notin rest _ k1 hnd2.2]
      exact lookup_replaceKey_self a k1 v (mergeTree v w1) ha
    · simp only [lookupKV, if_neg hk] at hb
      cases hl : lookupKV a k1 with
      | some v1 =>
        rw [show mergeInto a ((k1, w1) :: rest) =
            mergeInto (replaceKey a k1 (mergeTree v1 w1)) rest from by simp [mergeInto, hl]]
        have ha2 : lookupKV (replaceKey a k1 (mergeTree v1 w1)) k = some v := by
          rw [lookup_replaceKey_ne a k1 k _ (fun h => hk h.symm)]
          exact ha
        exact ih _ k v w hnd2.1 ha2 hb
      | none =>
        rw [show mergeInto a ((k1, w1) :: rest) =
            mergeInto (a ++ [ (k1, w1) ]) rest from by simp [mergeInto, hl]]
        exact ih _ k v w hnd2.1 (lookup_append_some a _ k v ha) hb

/-- A key only in the incoming mapping is inserted with its value. -/
theorem mergeInto_lookup_right :
    ∀ (b a : List (String × ConfigTree)) (k : String) (w : ConfigTree),
    (keysOf b).Nodup → lookupKV a k = none → lookupKV b k = some w →
    lookupKV (mergeInto a b) k = some w := by
  intro b
  induction b with
  | nil => intro a k w _ _ hb; simp [lookupKV] at hb
  | cons kv rest ih =>
    intro a k w hnd ha hb
    obtain ⟨k1, w1⟩ := kv
    have hnd2 : (keysOf rest).Nodup ∧ k1 ∉ keysOf rest := by
      simp only [keysOf, List.map_cons, List.nodup_cons] at hnd
      exact ⟨hnd.2, hnd.1⟩
    by_cases hk : k1 = k
    · subst hk
      simp only [lookupKV, if_pos rfl] at hb
      injection hb with hb2
      rw [← hb2]
      rw [show mergeInto a ((k1, w1) :: rest) =
          mergeInto (a ++ [ (k1, w1) ]) rest from by simp [mergeInto, ha]]
      rw [lookup_mergeInto_notin rest _ k1 hnd2.2]
      rw [lookup_append_none a _ k1 ha]
      simp [lookupKV]
    · simp only [lookupKV, if_neg hk] at hb
      cases hl : lookupKV a k1 with
      | some v1 =>
        rw [show mergeInto a ((k1, w1) :: rest) =
            mergeInto (replaceKey a k1 (mergeTree v1 w1)) rest from by simp [mergeInto, hl]]
        have ha2 : lookupKV (replaceKey a k1 (mergeTree v1 w1)) k = none := by
          rw [lookup_replaceKey_ne a k1 k _ (fun h => hk h.symm)]
          exact ha
        exact ih _ k w hnd2.1 ha2 hb
      | none =>
        rw [show mergeInto a ((k1, w1) :: rest) =
            mergeInto (a ++ [ (k1, w1) ]) rest from by simp [mergeInto, hl]]
        have ha2 : lookupKV (a ++ [ (k1, w1) ]) k = none := by
          rw [lookup_append_none a _ k ha]
          simp [lookupKV, hk]
        exact ih _ k w hnd2.1 ha2 hb

/-- A key only in the accumulator keeps its value. -/
theorem mergeInto_lookup_left :
    ∀ (b a : List (String × ConfigTree)) (k : String) (v : ConfigTree),
    lookupKV a k = some v → lookupKV b k = none →
    lookupKV (mergeInto a b) k = some v := by
  intro b a k v ha hb
  rw [lookup_mergeInto_notin b a k ((lookupKV_eq_none_iff b k).mp hb)]
  exact ha

/-- Any combination other than mapping with mapping or sequence with
sequence lets the new value fully replace the old. -/
theorem mergeTree_replace (t1 t2 : ConfigTree)
    (h1 : (isMapB t1 && isMapB t2) = false) (h2 : (isSeqB t1 && isSeqB t2) = false) :
    mergeTree t1 t2 = t2 := by
  cases t1 <;> cases t2 <;> simp_all [isMapB, isSeqB] <;> simp [mergeTree]

/-- Claim C5: the deep merge has exactly three cases — mapping into mapping
merges recursively by key (keys only in the accumulator stay, keys only in
the incoming mapping are inserted, keys in both recurse), sequence into
sequence concatenates accumulator first, and any other combination lets the
incoming value fully replace the accumulated one.  Incoming mapping keys
are assumed distinct, as Python dict keys are. -/
theorem deep_merge_three_cases :
    (∀ a b : List (String × ConfigTree), mergeTree (.map a) (.map b) = .map (mergeInto a b)) ∧
    (∀ (a b : List (String × ConfigTree)) (k : String) (v w : ConfigTree),
      (keysOf b).Nodup → lookupKV a k = some v → lookupKV b k = some w →
      lookupKV (mergeInto a b) k = some (mergeTree v w)) ∧
    (∀ (a b : List (String × ConfigTree)) (k : String) (w : ConfigTree),
      (keysOf b).Nodup → lookupKV a k = none → lookupKV b k = some w →
      lookupKV (mergeInto a b) k = some w) ∧
    (∀ (a b : List (String × ConfigTree)) (k : String) (v : ConfigTree),
      lookupKV a k = some v → lookupKV b k = none →
      lookupKV (mergeInto a b) k = some v) ∧
    (∀ xs ys : List ConfigTree, mergeTree (.seq xs) (.seq ys) = .seq (xs ++ ys)) ∧
    (∀ t1 t2 : ConfigTree, (isMapB t1 && isMapB t2) = false →
      (isSeqB t1 && isSeqB t2) = false → mergeTree t1 t2 = t2) := by
  refine ⟨?_, ?_, ?_, ?_, ?_, ?_⟩
  · intro a b; simp [mergeTree]
  · intro a b k v w hnd ha hb; exact mergeInto_lookup_both b a k v w hnd ha hb
  · intro a b k w hnd ha hb; exact mergeInto_lookup_right b a k w hnd ha hb
  · intro a b k v ha hb; exact mergeInto_lookup_left b a k v ha hb
  · intro xs ys; simp [mergeTree]
  · exact mergeTree_replace

/-- Witness for claim C5: a key in both mappings recurses, and a key only in
the incoming mapping is inserted. -/
theorem deep_merge_three_cases_witness :
    lookupKV (mergeInto [ (("x"), ConfigTree.int 1) ] [ (("x"), ConfigTree.int 2) ]) ("x")
      = some (mergeTree (ConfigTree.int 1) (ConfigTree.int 2)) ∧
    lookupKV (mergeInto [ (("a"), ConfigTree.int 1) ] [ (("b"), ConfigTree.int 2) ]) ("b")
      = some (ConfigTree.int 2) := by
  constructor
  · exact deep_merge_three_cases.2.1 [ (("x"), ConfigTree.int 1) ]
      [ (("x"), ConfigTree.int 2) ] ("x") (ConfigTree.int 1) (ConfigTree.int 2)
      (by decide) rfl rfl
  · exact deep_merge_three_cases.2.2.1 [ (("a"), ConfigTree.int 1) ]
      [ (("b"), ConfigTree.int 2) ] ("b") (ConfigTree.int 2) (by decide) rfl rfl

/-- Counterexample for claim C7: re-associating the left-to-right fold
changes the result when a scalar sits between two mappings, so the deep
merge is not associative. -/
theorem merge_not_associative_counterexample :
    mergeTree (mergeTree (.map [ (("a"), ConfigTree.int 1) ]) (ConfigTree.int 5))
        (.map [ (("b"), ConfigTree.int 2) ]) ≠
      mergeTree (.map [ (("a"), ConfigTree.int 1) ])
        (mergeTree (ConfigTree.int 5) (.map [ (("b"), ConfigTree.int 2) ])) := by
  simp [mergeTree, mergeInto, lookupKV, replaceKey]

/-- Claim C7 as amended: the left-to-right fold in MergeSet order is the
defined semantics and the later tree wins on conflicting keys (so merge is
not commutative), but merge is not associative in general — re-association
across a non-mapping value changes the result. -/
theorem merge_later_wins_not_associative :
    (∀ (k : String) (c1 c2 : ConfigTree), (isMapB c1 && isMapB c2) = false →
      (isSeqB c1 && isSeqB c2) = false →
      mergeTree (.map [ (k, c1) ]) (.map [ (k, c2) ]) = .map [ (k, c2) ]) ∧
    (∃ t1 t2 t3 : ConfigTree,
      mergeTree (mergeTree t1 t2) t3 ≠ mergeTree t1 (mergeTree t2 t3)) := by
  constructor
  · intro k c1 c2 h1 h2
    rw [show mergeTree (.map [ (k, c1) ]) (.map [ (k, c2) ]) =
        .map (mergeInto [ (k, c1) ] [ (k, c2) ]) from by simp [mergeTree]]
    rw [show mergeInto [ (k, c1) ] [ (k, c2) ] =
        [ (k, mergeTree c1 c2) ] from by simp [mergeInto, lookupKV, replaceKey]]
    rw [mergeTree_replace c1 c2 h1 h2]
  · refine ⟨.map [ (("a"), ConfigTree.int 1) ], ConfigTree.int 5,
      .map [ (("b"), ConfigTree.int 2) ], ?_⟩
    simp [mergeTree, mergeInto, lookupKV, replaceKey]

/-- Witness for claim C7 as amended, at a concrete scalar conflict. -/
theorem merge_later_wins_not_associative_witness :
    mergeTree (.map [ (("k"), ConfigTree.int 1) ]) (.map [ (("k"), ConfigTree.str ("x")) ]) =
      .map [ (("k"), ConfigTree.str ("x")) ] :=
  merge_later_wins_not_associative.1 ("k") (ConfigTree.int 1) (ConfigTree.str ("x"))
    (by decide) (by decide)

/-! Helper lemmas: the directory walk and the MergeSet refinement. -/

/-- Structural induction over directory trees with member hypotheses for
the subdirectory list. -/
theorem dirTInd (P : DirT → Prop)
    (h : ∀ files subdirs, (∀ nm d, (nm, d) ∈ subdirs → P d) → P (.node files subdirs)) :
    ∀ d, P d
  | .node files subdirs => h files subdirs (fun nm d hd => dirTInd P h d)
termination_by d => sizeOf d
decreasing_by
  have := List.sizeOf_lt_of_mem hd
  simp only [DirT.node.sizeOf_spec, Prod.mk.sizeOf_spec] at this ⊢
  omega

/-- Folding a concatenation folds the first part, then the second from the
reached accumulator, aborting early on a parse failure. -/
theorem loadFold_append :
    ∀ (l1 : List (String × Except String ConfigTree)) (acc : ConfigTree)
      (l2 : List (String × Except String ConfigTree)),
    loadFold acc (l1 ++ l2) =
      (match loadFold acc l1 with
       | .ok a1 => loadFold a1 l2
       | .error e => .error e) := by
  intro l1
  induction l1 with
  | nil => intro acc l2; simp [loadFold]
  | cons pe rest ih =>
    intro acc l2
    obtain ⟨p, pr⟩ := pe
    cases pr with
    | error m => simp [loadFold]
    | ok t => simp [loadFold, ih]

/-- The statement-semantics fold over a concatenation folds the first part,
then the second from the reached accumulator, aborting early on a parse
failure. -/
theorem stmtFold_append :
    ∀ (l1 : List (String × Except String ConfigTree)) (acc : ConfigTree)
      (l2 : List (String × Except String ConfigTree)),
    stmtFold acc (l1 ++ l2) =
      (match stmtFold acc l1 with
       | .ok a1 => stmtFold a1 l2
       | .error e => .error e) := by
  intro l1
  induction l1 with
  | nil => intro acc l2; simp [stmtFold]
  | cons pe rest ih =>
    intro acc l2
    obtain ⟨p, pr⟩ := pe
    cases pr with
    | error m => simp [stmtFold]
    | ok t => simp [stmtFold, ih]

/-- The code's inner file loop equals the statement-semantics fold over the
filtered, path-qualified file list. -/
theorem codeFiles_eq :
    ∀ (l : List (String × Except String ConfigTree)) (acc : ConfigTree)
      (pre : String) (exts : List String),
    codeFiles acc pre exts l =
      stmtFold acc ((l.filter (fun fe => exts.any (fun e => endsWith fe.1 e))).map
        (fun fe => (pre ++ ("/") ++ fe.1, fe.2))) := by
  intro l
  induction l with
  | nil => intro acc pre exts; simp [codeFiles, stmtFold]
  | cons fe rest ih =>
    intro acc pre exts
    obtain ⟨nm, pr⟩ := fe
    by_cases hf : (exts.any (fun e => endsWith nm e)) = true
    · cases pr with
      | error m => simp [codeFiles, hf, List.filter_cons, stmtFold]
      | ok t => simp [codeFiles, hf, List.filter_cons, stmtFold, ih]
    · have hf2 : (exts.any (fun e => endsWith nm e)) = false := by
        simpa using hf
      simp [codeFiles, hf2, List.filter_cons, ih]

/-- The walk of the code equals the statement-semantics fold over the
MergeSet: same file order, same filtering, same abort behavior. -/
theorem codeWalk_eq_mergeSet :
    ∀ (d : DirT) (acc : ConfigTree) (pre : String) (exts : List String),
    codeWalk acc pre exts d = stmtFold acc (mergeSetOf pre exts d) := by
  apply dirTInd (fun d => ∀ acc pre exts,
    codeWalk acc pre exts d = stmtFold acc (mergeSetOf pre exts d))
  intro files subdirs ih acc pre exts
  have hsub : ∀ (sd : List (String × DirT)) (acc2 : ConfigTree),
      (∀ nm d2, (nm, d2) ∈ sd → ∀ acc3 pre3 exts3,
        codeWalk acc3 pre3 exts3 d2 = stmtFold acc3 (mergeSetOf pre3 exts3 d2)) →
      codeSubdirs acc2 pre exts sd = stmtFold acc2 (mergeSetList pre exts sd) := by
    intro sd
    induction sd with
    | nil => intro acc2 _; simp [codeSubdirs, mergeSetList, stmtFold]
    | cons nd rest ihs =>
      intro acc2 hmem
      obtain ⟨nm, d2⟩ := nd
      have hw := hmem nm d2 (by simp) acc2 (pre ++ ("/") ++ nm) exts
      rw [show mergeSetList pre exts ((nm, d2) :: rest) =
          mergeSetOf (pre ++ ("/") ++ nm) exts d2 ++ mergeSetList pre exts rest from by
        simp [mergeSetList]]
      rw [stmtFold_append]
      rw [← hw]
      cases hcw : codeWalk acc2 (pre ++ ("/") ++ nm) exts d2 with
      | error e =>
        simp only [codeSubdirs, hcw]
        rfl
      | ok a1 =>
        simp only [codeSubdirs, hcw, Except.bind]
        exact ihs a1 (fun nm2 d3 hm => hmem nm2 d3 (by simp [hm]))
  rw [show mergeSetOf pre exts (.node files subdirs) =
      ((sortFiles files).filter (fun fe => exts.any (fun e => endsWith fe.1 e))).map
          (fun fe => (pre ++ ("/") ++ fe.1, fe.2))
        ++ mergeSetList pre exts subdirs from by simp [mergeSetOf]]
  rw [stmtFold_append]
  rw [← codeFiles_eq (sortFiles files) acc pre exts]
  cases hcf : codeFiles acc pre exts (sortFiles files) with
  | error e =>
    simp only [codeWalk, hcf]
    rfl
  | ok a1 =>
    simp only [codeWalk, hcf, Except.bind]
    exact hsub subdirs a1 ih

/-- Lexicographic order on character lists is total. -/
theorem lexLe_total : ∀ a b : List Char, lexLe a b = true ∨ lexLe b a = true := by
  intro a
  induction a with
  | nil => intro b; left; simp [lexLe]
  | cons c as_ ih =>
    intro b
    cases b with
    | nil => right; simp [lexLe]
    | cons d bs =>
      rcases lt_trichotomy c d with h | h | h
      · left; simp [lexLe, h]
      · subst h
        rcases ih bs with h2 | h2
        · left; simp [lexLe, h2]
        · right; simp [lexLe, h2]
      · right; simp [lexLe, h]

/-- Lexicographic order on character lists is transitive. -/
theorem lexLe_trans : ∀ a b c : List Char,
    lexLe a b = true → lexLe b c = true → lexLe a c = true := by
  intro a
  induction a with
  | nil => intro b c _ _; simp [lexLe]
  | cons x as_ ih =>
    intro b c h1 h2
    cases b with
    | nil => simp [lexLe] at h1
    | cons y bs =>
      cases c with
      | nil => simp [lexLe] at h2
      | cons z cs =>
        simp only [lexLe, Bool.or_eq_true, Bool.and_eq_true, decide_eq_true_eq] at h1 h2 ⊢
        rcases h1 with h1 | ⟨he1, hr1⟩
        · rcases h2 with h2 | ⟨he2, hr2⟩
          · exact Or.inl (lt_trans h1 h2)
          · subst he2; exact Or.inl h1
        · subst he1
          rcases h2 with h2 | ⟨he2, hr2⟩
          · exact Or.inl h2
          · subst he2; exact Or.inr ⟨rfl, ih bs cs hr1 hr2⟩

/-- Membership in an insertion. -/
theorem insertFile_mem : ∀ (x y : String × Except String ConfigTree)
    (l : List (String × Except String ConfigTree)),
    y ∈ insertFile x l ↔ y = x ∨ y ∈ l := by
  intro x y l
  induction l with
  | nil => simp [insertFile]
  | cons z zs ih =>
    by_cases h : fileLe x z
    · simp only [insertFile, if_pos h, List.mem_cons]
    · simp only [insertFile, if_neg h, List.mem_cons, ih]
      tauto

/-- Inserting preserves name-sortedness. -/
theorem insertFile_pairwise (x : String × Except String ConfigTree) :
    ∀ l : List (String × Except String ConfigTree),
    l.Pairwise (fun a b => fileLe a b = true) →
    (insertFile x l).Pairwise (fun a b => fileLe a b = true) := by
  intro l
  induction l with
  | nil => intro _; simp [insertFile]
  | cons y ys ih =>
    intro h
    rw [List.pairwise_cons] at h
    by_cases hxy : fileLe x y
    · have hxy2 : fileLe x y = true := by simpa using hxy
      rw [show insertFile x (y :: ys) = x :: y :: ys from by simp [insertFile, hxy2]]
      rw [List.pairwise_cons]
      constructor
      · intro z hz
        rcases List.mem_cons.mp hz with hz2 | hz2
        · subst hz2; exact hxy2
        · exact lexLe_trans _ _ _ hxy2 (h.1 z hz2)
      · rw [List.pairwise_cons]
        exact h
    · have hxy2 : fileLe x y = false := by simpa using hxy
      have hyx : fileLe y x = true := by
        rcases lexLe_total x.1.data y.1.data with h2 | h2
        · exact absurd h2 (by simpa [fileLe] using hxy2)
        · simpa [fileLe] using h2
      rw [show insertFile x (y :: ys) = y :: insertFile x ys from by
        simp [insertFile, hxy2]]
      rw [List.pairwise_cons]
      constructor
      · intro z hz
        rcases (insertFile_mem x z ys).mp hz with hz2 | hz2
        · subst hz2; exact hyx
        · exact h.1 z hz2
      · exact ih h.2

/-- The per-directory sort produces a name-sorted list. -/
theorem sortFiles_sorted : ∀ l : List (String × Except String ConfigTree),
    (sortFiles l).Pairwise (fun a b => fileLe a b = true) := by
  intro l
  induction l with
  | nil => simp [sortFiles]
  | cons x xs ih => exact insertFile_pairwise x (sortFiles xs) ih

/-- Every error of the fold is a file-parsing error carrying a path and the
parser's message. -/
theorem loadFold_error_shape :
    ∀ (l : List (String × Except String ConfigTree)) (acc : ConfigTree) (e : SourceError),
    loadFold acc l = .error e → ∃ p m, e = .configFileParsing p (.parse m) := by
  intro l
  induction l with
  | nil => intro acc e h; simp [loadFold] at h
  | cons pe rest ih =>
    intro acc e h
    obtain ⟨p, pr⟩ := pe
    cases pr with
    | error m =>
      simp [loadFold] at h
      exact ⟨p, m, h.symm⟩
    | ok t =>
      simp only [loadFold] at h
      exact ih _ e h

/-- A suffix of the file name is a suffix of the slash-qualified path. -/
theorem endsWith_append (a b e : String) (h : endsWith b e = true) :
    endsWith (a ++ b) e = true := by
  simp only [endsWith, List.isSuffixOf_iff_suffix, String.data_append] at h ⊢
  exact h.trans (List.suffix_append a.data b.data)

/-- A MergeSet entry of a subdirectory list comes from one of its
subdirectories. -/
theorem mergeSetList_mem :
    ∀ (sd : List (String × DirT)) (pre : String) (exts : List String) (p : String)
      (c : Except String ConfigTree),
    (p, c) ∈ mergeSetList pre exts sd →
    ∃ nm d2, (nm, d2) ∈ sd ∧ (p, c) ∈ mergeSetOf (pre ++ ("/") ++ nm) exts d2 := by
  intro sd
  induction sd with
  | nil => intro pre exts p c h; simp [mergeSetList] at h
  | cons nd rest ih =>
    intro pre exts p c h
    obtain ⟨nm, d2⟩ := nd
    rw [show mergeSetList pre exts ((nm, d2) :: rest) =
        mergeSetOf (pre ++ ("/") ++ nm) exts d2 ++ mergeSetList pre exts rest from by
      simp [mergeSetList]] at h
    rcases List.mem_append.mp h with hm | hm
    · exact ⟨nm, d2, by simp, hm⟩
    · rcases ih pre exts p c hm with ⟨nm2, d3, hin, hm2⟩
      exact ⟨nm2, d3, by simp [hin], hm2⟩

/-- Every MergeSet entry's path ends in one of the configured extensions. -/
theorem mergeSet_suffix :
    ∀ (d : DirT) (pre : String) (exts : List String) (p : String)
      (c : Except String ConfigTree),
    (p, c) ∈ mergeSetOf pre exts d → ∃ e ∈ exts, endsWith p e = true := by
  apply dirTInd (fun d => ∀ pre exts p c,
    (p, c) ∈ mergeSetOf pre exts d → ∃ e ∈ exts, endsWith p e = true)
  intro files subdirs ih pre exts p c hmem
  rw [show mergeSetOf pre exts (.node files subdirs) =
      ((sortFiles files).filter (fun fe => exts.any (fun e => endsWith fe.1 e))).map
          (fun fe => (pre ++ ("/") ++ fe.1, fe.2))
        ++ mergeSetList pre exts subdirs from by simp [mergeSetOf]] at hmem
  rcases List.mem_append.mp hmem with hm | hm
  · rcases List.mem_map.mp hm with ⟨fe, hfe, heq⟩
    rcases List.mem_filter.mp hfe with ⟨-, hfilter⟩
    rcases List.any_eq_true.mp hfilter with ⟨e, he, hend⟩
    injection heq with h1 h2
    refine ⟨e, he, ?_⟩
    rw [← h1]
    exact endsWith_append (pre ++ ("/")) fe.1 e (by simpa using hend)
  · rcases mergeSetList_mem subdirs pre exts p c hm with ⟨nm, d2, hin, hm2⟩
    exact ih nm d2 hin _ exts p c hm2

/-- Every error of the statement-semantics fold is a file-parsing error
carrying a path and the parser's message. -/
theorem stmtFold_error_shape :
    ∀ (l : List (String × Except String ConfigTree)) (acc : ConfigTree) (e : SourceError),
    stmtFold acc l = .error e → ∃ p m, e = .configFileParsing p (.parse m) := by
  intro l
  induction l with
  | nil => intro acc e h; simp [stmtFold] at h
  | cons pe rest ih =>
    intro acc e h
    obtain ⟨p, pr⟩ := pe
    cases pr with
    | error m =>
      simp [stmtFold] at h
      exact ⟨p, m, h.symm⟩
    | ok t =>
      simp only [stmtFold] at h
      exact ih _ e h

/-- On mapping-rooted file trees the statement semantics and the spec's
deep-merge fold agree: the mapping-into-mapping case is the one case whose
in-place mutation lands in the accumulator, and it keeps the accumulator a
mapping. -/
theorem stmtFold_eq_loadFold_on_maps :
    ∀ (l : List (String × Except String ConfigTree)),
    (∀ p t, (p, Except.ok t) ∈ l → isMapB t = true) →
    ∀ a : List (String × ConfigTree),
    stmtFold (.map a) l = loadFold (.map a) l := by
  intro l
  induction l with
  | nil => intro _ a; simp [stmtFold, loadFold]
  | cons pe rest ih =>
    intro h a
    obtain ⟨p, pr⟩ := pe
    cases pr with
    | error m => simp [stmtFold, loadFold]
    | ok t =>
      have hm : isMapB t = true := h p t (by simp)
      cases t with
      | str sv => simp [isMapB] at hm
      | int n => simp [isMapB] at hm
      | float f => simp [isMapB] at hm
      | bool bv => simp [isMapB] at hm
      | null => simp [isMapB] at hm
      | seq xs => simp [isMapB] at hm
      | map b =>
        rw [show stmtFold (.map a) ((p, Except.ok (ConfigTree.map b)) :: rest) =
            stmtFold (mergeStatement (.map a) (.map b)) rest from by simp [stmtFold]]
        rw [show loadFold (.map a) ((p, Except.ok (ConfigTree.map b)) :: rest) =
            loadFold (mergeTree (.map a) (.map b)) rest from by simp [loadFold]]
        rw [show mergeStatement (ConfigTree.map a) (ConfigTree.map b) =
            ConfigTree.map (mergeInto a b) from by simp [mergeStatement]]
        rw [show mergeTree (ConfigTree.map a) (ConfigTree.map b) =
            ConfigTree.map (mergeInto a b) from by simp [mergeTree]]
        exact ih (fun p2 t2 hmem => h p2 t2 (by simp [hmem])) (mergeInto a b)

/-- Counterexample for claim C6: a contributing file parsing to a
non-mapping tree (reachable through yaml.safe_load, whose or-empty guard
catches only falsy values) is silently dropped by the walk, because
sources.py discards the merge statement's return value — while the spec's
deep-merge fold over the MergeSet would let that tree replace the
accumulator.  The walk is therefore not the spec fold over the
contributing files. -/
theorem walk_not_spec_fold_counterexample :
    codeWalk (.map []) ("p") yamlExts
        (.node [ (("a.yaml"), .ok (ConfigTree.seq [ ConfigTree.int 1 ])) ] []) ≠
      loadFold (.map [])
        (mergeSetOf ("p") yamlExts
          (.node [ (("a.yaml"), .ok (ConfigTree.seq [ ConfigTree.int 1 ])) ] [])) := by
  have hay : endsWith ("a.yaml") (".yaml") = true := by decide
  simp only [codeWalk, codeFiles, codeSubdirs, sortFiles, insertFile, yamlExts, hay,
    mergeSetOf, mergeSetList, loadFold, mergeStatement, mergeTree, Except.bind]
  intro hcon
  have h2 : Except.ok (ConfigTree.map ([] : List (String × ConfigTree))) =
      (Except.ok (ConfigTree.seq [ ConfigTree.int 1 ]) : Except SourceError ConfigTree) := hcon
  simp at h2

/-- Claim C6 as amended: in directory mode the contributing files form the
MergeSet — the walk's order with each directory's files sorted
lexicographically and only names ending in a configured extension
(case-sensitive) kept — and the code processes them in exactly that order;
but because sources.py lines 44 and 83 discard the merge statement's
return value, a contributing file whose parsed tree is not a mapping
leaves the accumulator unchanged instead of replacing it: the walk equals
the MergeSet fold under the in-place statement semantics, which coincides
with the spec's deep-merge fold whenever every contributing tree is a
mapping. -/
theorem directory_merge_is_ordered_merge_set :
    (∀ (acc : ConfigTree) (pre : String) (exts : List String) (d : DirT),
      codeWalk acc pre exts d = stmtFold acc (mergeSetOf pre exts d)) ∧
    (∀ (l : List (String × Except String ConfigTree)),
      (∀ p t, (p, Except.ok t) ∈ l → isMapB t = true) →
      ∀ a : List (String × ConfigTree),
      stmtFold (.map a) l = loadFold (.map a) l) ∧
    (∀ (d : DirT) (pre : String) (exts : List String) (p : String)
      (c : Except String ConfigTree), (p, c) ∈ mergeSetOf pre exts d →
      ∃ e ∈ exts, endsWith p e = true) ∧
    (∀ l : List (String × Except String ConfigTree),
      (sortFiles l).Pairwise (fun a b => fileLe a b = true)) := by
  refine ⟨?_, stmtFold_eq_loadFold_on_maps, mergeSet_suffix, sortFiles_sorted⟩
  intro acc pre exts d
  exact codeWalk_eq_mergeSet d acc pre exts

/-- Witness for claim C6: at a concrete mapping-rooted file list the two
folds agree, and a concrete MergeSet entry's path carries its extension. -/
theorem directory_merge_is_ordered_merge_set_witness :
    stmtFold (.map []) [ ((("p") ++ ("/") ++ ("a.yaml")),
        Except.ok (ConfigTree.map [ (("k"), ConfigTree.int 1) ])) ] =
      loadFold (.map []) [ ((("p") ++ ("/") ++ ("a.yaml")),
        Except.ok (ConfigTree.map [ (("k"), ConfigTree.int 1) ])) ] ∧
    ∃ e ∈ yamlExts, endsWith (("p") ++ ("/") ++ ("a.yaml")) e = true := by
  constructor
  · apply directory_merge_is_ordered_merge_set.2.1
    intro p t hm
    simp only [List.mem_singleton, Prod.mk.injEq, Except.ok.injEq] at hm
    rw [hm.2]
    simp [isMapB]
  · have hend : endsWith ("a.yaml") (".yaml") = true := by decide
    apply directory_merge_is_ordered_merge_set.2.2.1
      (.node [ (("a.yaml"), .ok ConfigTree.null) ] []) ("p") yamlExts
      (("p") ++ ("/") ++ ("a.yaml")) (.ok ConfigTree.null)
    simp [mergeSetOf, mergeSetList, sortFiles, insertFile, yamlExts, List.filter, hend]

/-- Claim C8: a path that exists as neither a file nor a directory makes
both front ends return the empty mapping with no error. -/
theorem absent_path_yields_empty_mapping :
    ∀ (path : String) (lk : String → Option String),
      tomlSourceCall path .absent lk = .ok (.map []) ∧
      yamlSourceCall path .absent lk = .ok (.map []) := by
  intro path lk
  have h : resolve lk (.map []) = .ok (.map []) := by
    simp [resolve, resolveKVs, Except.map]
  constructor
  · simp [tomlSourceCall, loadAndResolve, loadPath, h]
  · simp [yamlSourceCall, loadAndResolve, loadPath, h]

/-- Claim C1, evaluated at the failing input: on a file whose scalar
references an absent variable, the TOML front end re-wraps the missing
variable error as a file-parsing error on the configured path, while the
YAML front end propagates the missing-variable error unmodified — the two
front ends do not both surface the error kinds unchanged. -/
theorem toml_wraps_missing_var_yaml_passes_it :
    tomlSourceCall ("cfg.toml")
        (.isFile (.ok (.map [ (("k"), ConfigTree.str ("$\x7bX\x7d")) ]))) (fun _ => none)
      = .error (.configFileParsing ("cfg.toml") (.missingVar ("X"))) ∧
    yamlSourceCall ("cfg.yaml")
        (.isFile (.ok (.map [ (("k"), ConfigTree.str ("$\x7bX\x7d")) ]))) (fun _ => none)
      = .error (.missingEnvVar ("X")) := by
  have hstr : resolveString (fun _ => none) ("$\x7bX\x7d") = .error ("X") := rfl
  have hres : resolve (fun _ => none) (.map [ (("k"), ConfigTree.str ("$\x7bX\x7d")) ])
      = .error ("X") := by
    simp only [resolve, resolveKVs, resolve_str, hstr]
    rfl
  constructor
  · simp [tomlSourceCall, loadAndResolve, loadPath, hres]
  · simp [yamlSourceCall, loadAndResolve, loadPath, hres]

/-- Claim C10: in directory mode, substitution happens exactly once, on the
fully merged accumulator — a parse failure in any contributing file
surfaces as that file's parsing error whatever the environment holds (so
even when an earlier-ordered file references an absent variable), and a
missing-variable error can only arise once every contributing file parsed,
from the single resolve pass over the merged tree. -/
theorem substitution_applied_once_after_merge :
    (∀ (path : String) (d : DirT) (lk : String → Option String) (p : String) (c : Cause),
      loadPath path (.isDir d) yamlExts = .error (.configFileParsing p c) →
      yamlSourceCall path (.isDir d) lk = .error (.configFileParsing p c)) ∧
    (∀ (path : String) (d : DirT) (lk : String → Option String) (p : String) (c : Cause),
      loadPath path (.isDir d) tomlExts = .error (.configFileParsing p c) →
      tomlSourceCall path (.isDir d) lk = .error (.configFileParsing p c)) ∧
    (∀ (path : String) (d : DirT) (lk : String → Option String) (n : String),
      yamlSourceCall path (.isDir d) lk = .error (.missingEnvVar n) →
      ∃ cfg, loadPath path (.isDir d) yamlExts = .ok cfg ∧ resolve lk cfg = .error n) := by
  refine ⟨?_, ?_, ?_⟩
  · intro path d lk p c h
    simp [yamlSourceCall, loadAndResolve, h]
  · intro path d lk p c h
    simp [tomlSourceCall, loadAndResolve, h]
  · intro path d lk n h
    cases hload : loadPath path (.isDir d) yamlExts with
    | error e =>
      have hshape : ∃ p m, e = .configFileParsing p (.parse m) := by
        have : codeWalk (.map []) path yamlExts d = .error e := by
          simpa [loadPath] using hload
        rw [codeWalk_eq_mergeSet d (.map []) path yamlExts] at this
        exact stmtFold_error_shape _ _ e this
      rcases hshape with ⟨p, m, rfl⟩
      simp [yamlSourceCall, loadAndResolve, hload] at h
    | ok cfg =>
      cases hres : resolve lk cfg with
      | ok r => simp [yamlSourceCall, loadAndResolve, hload, hres] at h
      | error m =>
        have hmn : m = n := by
          simpa [yamlSourceCall, loadAndResolve, hload, hres] using h
        subst hmn
        exact ⟨cfg, rfl, hres⟩

/-- Witness for claim C10: a directory whose second-sorted file fails to
parse surfaces that parsing error for both front ends although the
first-sorted file references an absent variable; and a directory that
parses cleanly but references an absent variable yields the merged tree on
which the one resolve pass fails. -/
theorem substitution_applied_once_after_merge_witness :
    yamlSourceCall ("p")
        (.isDir (.node [ (("a.yaml"), .ok (.map [ (("k"), ConfigTree.str ("$\x7bX\x7d")) ])),
          (("b.yaml"), .error ("bad")) ] [])) (fun _ => none)
      = .error (.configFileParsing (("p") ++ ("/") ++ ("b.yaml")) (.parse ("bad"))) ∧
    tomlSourceCall ("p")
        (.isDir (.node [ (("a.toml"), .ok (.map [ (("k"), ConfigTree.str ("$\x7bX\x7d")) ])),
          (("b.toml"), .error ("bad")) ] [])) (fun _ => none)
      = .error (.configFileParsing (("p") ++ ("/") ++ ("b.toml")) (.parse ("bad"))) ∧
    ∃ cfg, loadPath ("p")
        (.isDir (.node [ (("c.yaml"), .ok (.map [ (("k"), ConfigTree.str ("$\x7bX\x7d")) ])) ] []))
        yamlExts = .ok cfg ∧ resolve (fun _ => none) cfg = .error ("X") := by
  have hay : endsWith ("a.yaml") (".yaml") = true := by decide
  have hby : endsWith ("b.yaml") (".yaml") = true := by decide
  have hcy : endsWith ("c.yaml") (".yaml") = true := by decide
  have hat : endsWith ("a.toml") (".toml") = true := by decide
  have hbt : endsWith ("b.toml") (".toml") = true := by decide
  have hfab : fileLe (("a.yaml"), .ok (.map [ (("k"), ConfigTree.str ("$\x7bX\x7d")) ]))
      (("b.yaml"), .error ("bad")) = true := by decide
  have hfat : fileLe (("a.toml"), .ok (.map [ (("k"), ConfigTree.str ("$\x7bX\x7d")) ]))
      (("b.toml"), .error ("bad")) = true := by decide
  refine ⟨?_, ?_, ?_⟩
  · apply substitution_applied_once_after_merge.1
    simp [loadPath, codeWalk, codeFiles, codeSubdirs, sortFiles, insertFile,
      yamlExts, hay, hby, hfab, Except.bind]
    rfl
  · apply substitution_applied_once_after_merge.2.1
    simp [loadPath, codeWalk, codeFiles, codeSubdirs, sortFiles, insertFile,
      tomlExts, hat, hbt, hfat, Except.bind]
    rfl
  · apply substitution_applied_once_after_merge.2.2 ("p") _ _ ("X")
    have hstr : resolveString (fun _ => none) ("$\x7bX\x7d") = .error ("X") := rfl
    have hres : resolve (fun _ => none)
        (.map [ (("k"), ConfigTree.str ("$\x7bX\x7d")) ]) = .error ("X") := by
      simp only [resolve, resolveKVs, resolve_str, hstr]
      rfl
    have hmrg : mergeStatement (.map []) (.map [ (("k"), ConfigTree.str ("$\x7bX\x7d")) ])
        = .map [ (("k"), ConfigTree.str ("$\x7bX\x7d")) ] := by
      simp [mergeStatement, mergeInto, lookupKV]
    have hload : loadPath ("p")
        (.isDir (.node [ (("c.yaml"), .ok (.map [ (("k"), ConfigTree.str ("$\x7bX\x7d")) ])) ] []))
        yamlExts = .ok (.map [ (("k"), ConfigTree.str ("$\x7bX\x7d")) ]) := by
      simp [loadPath, codeWalk, codeFiles, codeSubdirs, sortFiles, insertFile,
        yamlExts, hcy, hmrg, Except.bind]
      rfl
    simp [yamlSourceCall, loadAndResolve, hload, hres]
